import Mathlib

/-!
# Verification of the Smart-Files-AI core against its specification

This file gives a shallow embedding, in Lean 4, of the core logic of the
Smart-Files-AI backend (`backend/services/indexer.py`,
`backend/services/vector_store.py`, `backend/services/file_organiser.py`)
and settles the specification claims about it.

Conventions used throughout:
* Python strings are modelled as `List Char`; Python string indices and
  slice bounds are modelled as `Int` with Python's clamping semantics.
* SQLite tables are modelled as Lean lists of row structures; the
  `AUTOINCREMENT` row-id counters are carried explicitly.
* Operations that can raise (SQLite constraint violations) return `Option`.
* Embedding vectors are modelled as `List ℚ` (exact arithmetic standing in
  for the float vectors); where the code's float semantics matter (the NaN
  produced by a 0/0 cosine similarity) the model represents it explicitly.
-/

/- The Batteries implementations of the rational-number operations are
marked irreducible, which blocks `decide` on concrete rational arithmetic;
re-allow unfolding them for this file (the kernel ignores reducibility
attributes, so this changes nothing about what is proved). -/
attribute [local semireducible] Rat.add Rat.mul Rat.sub Rat.inv Rat.ofScientific

/-! ## 1. The chunk splitter (`FileIndexer._split_text`, indexer.py 305-334) -/

/-- Python clamped slice bound: negative indices count from the end,
then the result is clamped to `[0, n]`. -/
def pyBound (n : Nat) (i : Int) : Nat :=
  let j : Int := if i < 0 then i + n else i
  if j < 0 then 0 else min j.toNat n

/-- Python slice `cs[a:b]`. -/
def pySlice (cs : List Char) (a b : Int) : List Char :=
  (cs.take (pyBound cs.length b)).drop (pyBound cs.length a)

/-- Python single-character index `cs[i]`: negative indices count from the
end; an out-of-range index gives `none` (an `IndexError` in Python; the
splitter never hits this case for the inputs considered here). -/
def pyCharAt (cs : List Char) (i : Int) : Option Char :=
  let j : Int := if i < 0 then i + cs.length else i
  if j < 0 then none else cs.get? j.toNat

/-- Python `str.strip()` whitespace (ASCII part, which is all the inputs
considered here contain). -/
def isPySpace (c : Char) : Bool :=
  c == ' ' || c == '\t' || c == '\n' || c == '\r' || c == '\x0b' || c == '\x0c'

/-- Python `cs.strip()`. -/
def pyStrip (cs : List Char) : List Char :=
  ((cs.dropWhile isPySpace).reverse.dropWhile isPySpace).reverse

/-- The sentence-terminal characters `'.!?\n'` of the splitter. -/
def isSentenceEnd (c : Char) : Bool :=
  c == '.' || c == '!' || c == '?' || c == '\n'

/-- `findBreakGo cs n i`: scan indices `i, i-1, ...` (`n` candidates) for the
first sentence-terminal character, as in
`for i in range(end, bound, -1): if text[i] in '.!?\n': ...`. -/
def findBreakGo (cs : List Char) : Nat → Int → Option Int
  | 0, _ => none
  | n + 1, i => if (pyCharAt cs i).any isSentenceEnd then some i else findBreakGo cs n (i - 1)

/-- `for i in range(hi, lo, -1)` searching for a sentence boundary:
visits `hi, hi-1, ..., lo+1`. -/
def findBreak (cs : List Char) (lo hi : Int) : Option Int :=
  findBreakGo cs (hi - lo).toNat hi

/-- The cut position `end` picked by one iteration of `_split_text`:
`end = start + chunk_size`, moved back to just after the nearest
sentence-terminal character when one occurs in
`range(end, max(start + chunk_size // 2, end - 200), -1)`. -/
def splitEnd (text : List Char) (S : Nat) (start : Int) : Int :=
  let e0 : Int := start + (S : Int)
  if e0 < (text.length : Int) then
    match findBreak text (max (start + ((S / 2 : Nat) : Int)) (e0 - 200)) e0 with
    | some i => i + 1
    | none => e0
  else e0

/-- One iteration of the `while start < len(text)` loop of `_split_text`:
returns the chunk text (already stripped) and the new value of `start`.
`S` is `chunk_size`, `O` is `overlap`. -/
def splitStep (text : List Char) (S O : Nat) (start : Int) : List Char × Int :=
  let e := splitEnd text S start
  (pyStrip (pySlice text start e), e - (O : Int))

/-- The `while` loop of `_split_text`, fuel-indexed: `none` means the fuel ran
out before the loop terminated (so `splitLoop text S O fuel 0 = none` for
every `fuel` exactly when the Python loop runs forever). Non-empty stripped
chunks are collected in order. -/
def splitLoop (text : List Char) (S O : Nat) : Nat → Int → Option (List (List Char))
  | 0, _ => none
  | fuel + 1, start =>
    if start < (text.length : Int) then
      match splitStep text S O start with
      | (chunk, start') =>
        match splitLoop text S O fuel start' with
        | none => none
        | some rest => some (if chunk.isEmpty then rest else chunk :: rest)
    else some []

/-- `FileIndexer._split_text(text, chunk_size, overlap)`: if the text fits in
one chunk it is returned as-is (not stripped); otherwise the sliding-window
loop runs (with the given fuel bound on its iteration count). -/
def split_text (text : List Char) (S O : Nat) (fuel : Nat) : Option (List (List Char)) :=
  if text.length ≤ S then some [text] else splitLoop text S O fuel 0

/-! ### Claims C5 and C6 -/

/-- The text used to refute claim C6: length 11 with a sentence-terminal
character at index 8, split with `chunk_size = 10`, `overlap = 9`. -/
def nontermText : List Char := "aaaaaaaa.aa".data

theorem splitStep_nonterm_eq : splitStep nontermText 10 9 0 = ("aaaaaaaa.".data, 0) := by
  decide

theorem splitLoop_nonterm : ∀ fuel, splitLoop nontermText 10 9 fuel 0 = none := by
  intro fuel
  induction fuel with
  | zero => rfl
  | succ n ih =>
    rw [splitLoop, if_pos (by decide), splitStep_nonterm_eq]
    simp only [ih]

/-- C5 (counterexample): the claim says that for input of length at most the
chunk size the single returned chunk equals the *trimmed* input. On the
input `" a "` (length 3 ≤ 1000) the code returns the chunk `" a "` itself,
untrimmed, which differs from the trimmed input `"a"`. -/
theorem split_text_short_untrimmed_cex :
    split_text " a ".data 1000 200 0 = some [" a ".data] ∧
      split_text " a ".data 1000 200 0 ≠ some [pyStrip " a ".data] := by
  constructor
  · decide
  · decide

/-- C5 (amended): for every text whose length is at most the chunk size `S`,
splitting yields exactly one chunk, and that chunk is the input text itself
(not stripped). -/
theorem split_text_short (text : List Char) (S O fuel : Nat)
    (h : text.length ≤ S) : split_text text S O fuel = some [text] := by
  simp [split_text, h]

theorem split_text_short_witness :
    "hi".data.length ≤ 1000 ∧ split_text "hi".data 1000 200 0 = some ["hi".data] :=
  ⟨by decide, split_text_short "hi".data 1000 200 0 (by decide)⟩

/-- C6 (counterexample): with `chunk_size = 10` and `overlap = 9`
(so `overlap < chunk_size` as the claim requires), the loop never terminates
on the length-11 input `"aaaaaaaa.aa"`: the sentence-boundary cut moves
`end` back to 9, so `start = end - overlap` stays at 0 forever. -/
theorem split_text_nonterm_cex :
    ¬ ∃ (fuel : Nat) (r : List (List Char)),
        split_text nontermText 10 9 fuel = some r := by
  rintro ⟨fuel, r, h⟩
  rw [split_text, if_neg (by decide), splitLoop_nonterm fuel] at h
  exact Option.noConfusion h

theorem findBreakGo_bounds (cs : List Char) :
    ∀ (n : Nat) (i j : Int), findBreakGo cs n i = some j → i - n < j ∧ j ≤ i := by
  intro n
  induction n with
  | zero => intro i j h; exact absurd h (by simp [findBreakGo])
  | succ m ih =>
    intro i j h
    rw [findBreakGo] at h
    by_cases hc : (pyCharAt cs i).any isSentenceEnd
    · rw [if_pos hc] at h
      cases h
      omega
    · rw [if_neg hc] at h
      have := ih (i - 1) j h
      omega

theorem findBreak_bounds {cs : List Char} {lo hi j : Int}
    (hlh : lo ≤ hi) (h : findBreak cs lo hi = some j) : lo < j ∧ j ≤ hi := by
  have hb := findBreakGo_bounds cs (hi - lo).toNat hi j h
  omega

/-- With the default `chunk_size = 1000` the cut position is at least
`start + 802` (the backward boundary search never goes past
`max(start + 500, start + 800)`). -/
theorem splitEnd_lower (text : List Char) (start : Int) :
    start + 802 ≤ splitEnd text 1000 start := by
  rw [splitEnd]
  by_cases h0 : start + ((1000 : Nat) : Int) < ((text.length : Nat) : Int)
  · rw [if_pos h0]
    rcases hfb : findBreak text
        (max (start + ((1000 / 2 : Nat) : Int)) (start + ((1000 : Nat) : Int) - 200))
        (start + ((1000 : Nat) : Int)) with _ | i
    · dsimp only
      push_cast
      omega
    · dsimp only
      have hlo : max (start + ((1000 / 2 : Nat) : Int)) (start + ((1000 : Nat) : Int) - 200)
          ≤ start + ((1000 : Nat) : Int) := by
        rw [max_le_iff]
        push_cast
        omega
      have hb := findBreak_bounds hlo hfb
      have hmax : start + ((1000 : Nat) : Int) - 200
          ≤ max (start + ((1000 / 2 : Nat) : Int)) (start + ((1000 : Nat) : Int) - 200) :=
        le_max_right _ _
      push_cast at hb hmax
      omega
  · rw [if_neg h0]
    push_cast at h0 ⊢
    omega

/-- With the default parameters (`chunk_size = 1000`, `overlap = 200`) every
loop iteration advances `start` by at least 602. -/
theorem splitStep_advance (text : List Char) (start : Int) :
    start + 602 ≤ (splitStep text 1000 200 start).2 := by
  have h := splitEnd_lower text start
  rw [splitStep]
  dsimp only
  push_cast
  omega

theorem splitLoop_defaults_isSome (text : List Char) :
    ∀ (fuel : Nat) (start : Int), 1 ≤ fuel →
      (text.length : Int) ≤ start + 602 * ((fuel : Int) - 1) →
      (splitLoop text 1000 200 fuel start).isSome := by
  intro fuel
  induction fuel with
  | zero => omega
  | succ n ih =>
    intro start _ hbound
    rw [splitLoop]
    by_cases hlt : start < (text.length : Int)
    · rw [if_pos hlt]
      have hn : 1 ≤ n := by
        rcases Nat.eq_zero_or_pos n with h0 | h1
        · subst h0; simp at hbound; omega
        · exact h1
      rcases hstep : splitStep text 1000 200 start with ⟨chunk, start'⟩
      have hadv : start + 602 ≤ start' := by
        have := splitStep_advance text start
        rw [hstep] at this
        exact this
      have hrec := ih start' hn (by push_cast at hbound ⊢; omega)
      rcases hsl : splitLoop text 1000 200 n start' with _ | rest
      · rw [hsl] at hrec; exact absurd hrec (by simp)
      · dsimp only
        rw [hsl]
        simp
    · rw [if_neg hlt]
      simp only [Option.isSome_some]

/-- C6 (amended): with the default parameters (`chunk_size = 1000`,
`overlap = 200`) the splitting algorithm terminates on every input: each
iteration advances `start` by at least 602 (at least
`max(S/2, S-200) + 2 - O`, not the claimed `S - O`), so `length + 2` fuel
always suffices. -/
theorem split_text_defaults_terminate (text : List Char) :
    ∃ r, split_text text 1000 200 (text.length + 2) = some r := by
  rw [split_text]
  by_cases h : text.length ≤ 1000
  · rw [if_pos h]; exact ⟨[text], rfl⟩
  · rw [if_neg h]
    have := splitLoop_defaults_isSome text (text.length + 2) 0 (by omega)
      (by push_cast; nlinarith [Int.ofNat_nonneg text.length])
    rcases hs : splitLoop text 1000 200 (text.length + 2) 0 with _ | r
    · rw [hs] at this; exact absurd this (by simp)
    · exact ⟨r, rfl⟩

/-! ## 2. The heuristic classifier (`FileClassifier`, file_organiser.py 14-131)

The regex patterns of `classification_rules` are of two shapes only:
anchored extension patterns such as `\.docx?$` (match: the lowercased path
ends with one of finitely many suffixes) and bare literals such as
`invoice` (match: substring). Both are translated to explicit matchers;
the original regex text is kept for building the reasoning strings. -/

/-- The two regex shapes used by `classification_rules`. -/
inductive PatKind where
  | suffixes (alts : List String)
  | substr (needle : String)
deriving DecidableEq

/-- One entry of a rule's `patterns` list: the regex source text (used in
reasoning messages) together with its translated matcher. -/
structure RulePattern where
  display : String
  kind : PatKind
deriving DecidableEq

/-- One category of `self.classification_rules`. -/
structure ClassRule where
  category : String
  patterns : List RulePattern
  keywords : List String
  contentKeywords : List String
deriving DecidableEq

/-- Python `needle in hay` on strings: contiguous-substring containment. -/
def containsSub (needle hay : List Char) : Bool := decide (needle <:+: hay)

/-- `re.search(pattern, file_path_lower, re.IGNORECASE)` for the two regex
shapes above (the input is already lowercased, matching the code). -/
def matchPattern (p : RulePattern) (pathL : List Char) : Bool :=
  match p.kind with
  | .suffixes alts => alts.any (fun a => a.data.isSuffixOf pathL)
  | .substr needle => containsSub needle.data pathL

/-- `self.classification_rules` (file_organiser.py 18-74), in source order. -/
def classification_rules : List ClassRule :=
  [ { category := "documents"
    , patterns :=
        [ ⟨"\\.pdf$", .suffixes [".pdf"]⟩
        , ⟨"\\.docx?$", .suffixes [".doc", ".docx"]⟩
        , ⟨"\\.txt$", .suffixes [".txt"]⟩
        , ⟨"\\.rtf$", .suffixes [".rtf"]⟩
        , ⟨"\\.odt$", .suffixes [".odt"]⟩ ]
    , keywords := ["document", "report", "manual", "guide", "specification"]
    , contentKeywords := ["contract", "agreement", "policy", "procedure"] }
  , { category := "invoices"
    , patterns :=
        [ ⟨"invoice", .substr "invoice"⟩
        , ⟨"bill", .substr "bill"⟩
        , ⟨"receipt", .substr "receipt"⟩
        , ⟨"payment", .substr "payment"⟩ ]
    , keywords := ["invoice", "bill", "receipt", "payment", "charge"]
    , contentKeywords := ["total", "amount", "due", "invoice", "billing"] }
  , { category := "reports"
    , patterns :=
        [ ⟨"report", .substr "report"⟩
        , ⟨"analysis", .substr "analysis"⟩
        , ⟨"summary", .substr "summary"⟩
        , ⟨"review", .substr "review"⟩ ]
    , keywords := ["report", "analysis", "summary", "review", "findings"]
    , contentKeywords := ["conclusion", "recommendation", "analysis", "findings"] }
  , { category := "presentations"
    , patterns :=
        [ ⟨"\\.pptx?$", .suffixes [".ppt", ".pptx"]⟩
        , ⟨"\\.key$", .suffixes [".key"]⟩
        , ⟨"\\.odp$", .suffixes [".odp"]⟩ ]
    , keywords := ["presentation", "slides", "deck", "pitch"]
    , contentKeywords := ["slide", "presentation", "overview"] }
  , { category := "spreadsheets"
    , patterns :=
        [ ⟨"\\.xlsx?$", .suffixes [".xls", ".xlsx"]⟩
        , ⟨"\\.csv$", .suffixes [".csv"]⟩
        , ⟨"\\.ods$", .suffixes [".ods"]⟩ ]
    , keywords := ["spreadsheet", "data", "calculation", "budget"]
    , contentKeywords := ["total", "sum", "calculation", "budget"] }
  , { category := "images"
    , patterns :=
        [ ⟨"\\.jpe?g$", .suffixes [".jpg", ".jpeg"]⟩
        , ⟨"\\.png$", .suffixes [".png"]⟩
        , ⟨"\\.gif$", .suffixes [".gif"]⟩
        , ⟨"\\.bmp$", .suffixes [".bmp"]⟩
        , ⟨"\\.svg$", .suffixes [".svg"]⟩
        , ⟨"\\.tiff?$", .suffixes [".tif", ".tiff"]⟩ ]
    , keywords := ["image", "photo", "picture", "graphic"]
    , contentKeywords := [] }
  , { category := "videos"
    , patterns :=
        [ ⟨"\\.mp4$", .suffixes [".mp4"]⟩
        , ⟨"\\.avi$", .suffixes [".avi"]⟩
        , ⟨"\\.mov$", .suffixes [".mov"]⟩
        , ⟨"\\.wmv$", .suffixes [".wmv"]⟩
        , ⟨"\\.flv$", .suffixes [".flv"]⟩
        , ⟨"\\.mkv$", .suffixes [".mkv"]⟩ ]
    , keywords := ["video", "movie", "clip", "recording"]
    , contentKeywords := [] }
  , { category := "audio"
    , patterns :=
        [ ⟨"\\.mp3$", .suffixes [".mp3"]⟩
        , ⟨"\\.wav$", .suffixes [".wav"]⟩
        , ⟨"\\.flac$", .suffixes [".flac"]⟩
        , ⟨"\\.aac$", .suffixes [".aac"]⟩
        , ⟨"\\.ogg$", .suffixes [".ogg"]⟩ ]
    , keywords := ["audio", "music", "sound", "recording"]
    , contentKeywords := [] }
  , { category := "code"
    , patterns :=
        [ ⟨"\\.py$", .suffixes [".py"]⟩
        , ⟨"\\.js$", .suffixes [".js"]⟩
        , ⟨"\\.html$", .suffixes [".html"]⟩
        , ⟨"\\.css$", .suffixes [".css"]⟩
        , ⟨"\\.java$", .suffixes [".java"]⟩
        , ⟨"\\.cpp$", .suffixes [".cpp"]⟩
        , ⟨"\\.c$", .suffixes [".c"]⟩ ]
    , keywords := ["code", "script", "program", "source"]
    , contentKeywords := ["function", "class", "import", "def", "var"] }
  , { category := "archives"
    , patterns :=
        [ ⟨"\\.zip$", .suffixes [".zip"]⟩
        , ⟨"\\.rar$", .suffixes [".rar"]⟩
        , ⟨"\\.7z$", .suffixes [".7z"]⟩
        , ⟨"\\.tar$", .suffixes [".tar"]⟩
        , ⟨"\\.gz$", .suffixes [".gz"]⟩ ]
    , keywords := ["archive", "backup", "compressed"]
    , contentKeywords := [] }
  , { category := "certificates"
    , patterns :=
        [ ⟨"certificate", .substr "certificate"⟩
        , ⟨"cert", .substr "cert"⟩
        , ⟨"diploma", .substr "diploma"⟩
        , ⟨"award", .substr "award"⟩ ]
    , keywords := ["certificate", "certification", "diploma", "award", "qualification"]
    , contentKeywords := ["certified", "completion", "achievement", "qualification"] } ]

/-- `Path(file_path).name`: the final path segment (POSIX separators; the
pathlib normalisation of trailing separators is not needed for the inputs
considered here). -/
def fileNameOf (cs : List Char) : List Char :=
  (cs.reverse.takeWhile (fun c => c ≠ '/')).reverse

/-- `file_path.lower()` (ASCII lowering, which is what all inputs here use). -/
def pathLower (p : String) : List Char := p.data.map Char.toLower

/-- `Path(file_path).name.lower()`. -/
def nameLower (p : String) : List Char := (fileNameOf p.data).map Char.toLower

/-- `file_content.lower()`. -/
def contentLower (c : String) : List Char := c.data.map Char.toLower

/-- `if file_content:` — Python truthiness of the content string. -/
def hasContentB (c : String) : Bool := !c.data.isEmpty

/-- The accumulated `category_score` of one category: `+= 0.4` per matching
pattern, `+= 0.3` per keyword contained in the file name, and, only when
content was supplied, `+= 0.2` per content keyword contained in it. -/
def catScore (r : ClassRule) (pathL nameL contentL : List Char) (hasContent : Bool) : ℚ :=
  let s1 := r.patterns.foldl (fun s p => if matchPattern p pathL then s + 0.4 else s) 0
  let s2 := r.keywords.foldl (fun s k => if containsSub k.data nameL then s + 0.3 else s) s1
  if hasContent then
    r.contentKeywords.foldl (fun s k => if containsSub k.data contentL then s + 0.2 else s) s2
  else s2

/-- The `category_reasons` strings collected alongside the score. -/
def catReasons (r : ClassRule) (pathL nameL contentL : List Char) (hasContent : Bool) :
    List String :=
  (r.patterns.filter (fun p => matchPattern p pathL)).map
      (fun p => "matches " ++ p.display ++ " pattern")
    ++ (r.keywords.filter (fun k => containsSub k.data nameL)).map
      (fun k => "filename contains \x27" ++ k ++ "\x27")
    ++ (if hasContent then
        (r.contentKeywords.filter (fun k => containsSub k.data contentL)).map
          (fun k => "content contains \x27" ++ k ++ "\x27")
      else [])

/-- The `scores` dict in insertion order: one `(category, min(score, 1.0))`
entry per category whose accumulated score is strictly positive. -/
def scoreEntries (pathL nameL contentL : List Char) (hasContent : Bool) :
    List (String × ℚ) :=
  classification_rules.filterMap (fun r =>
    if 0 < catScore r pathL nameL contentL hasContent then
      some (r.category, min (catScore r pathL nameL contentL hasContent) 1)
    else none)

/-- The `reasoning_parts` list, also only for positively scored categories. -/
def reasoningParts (pathL nameL contentL : List Char) (hasContent : Bool) : List String :=
  classification_rules.filterMap (fun r =>
    if 0 < catScore r pathL nameL contentL hasContent then
      some (r.category ++ ": " ++
        String.intercalate ", " (catReasons r pathL nameL contentL hasContent))
    else none)

/-- Python `max(scores.keys(), key=lambda k: scores[k])`, operating on the
insertion-ordered entry list: raises on an empty sequence, otherwise keeps
the first entry with the (strictly) greatest value. -/
def pyMaxBySnd : List (String × ℚ) → Except String (String × ℚ)
  | [] => Except.error "max() arg is an empty sequence"
  | x :: xs => Except.ok (xs.foldl (fun best y => if best.2 < y.2 then y else best) x)

/-- The body of `FileClassifier.classify_file` inside its `try:` — the only
operation in it that can raise for well-typed inputs is the guarded
`max(...)` call, modelled through `Except`. -/
def classify_file_body (file_path file_content : String) :
    Except String (String × ℚ × String) :=
  if (scoreEntries (pathLower file_path) (nameLower file_path)
      (contentLower file_content) (hasContentB file_content)).isEmpty then
    Except.ok ("miscellaneous", 0.1, "No specific patterns matched")
  else
    match pyMaxBySnd (scoreEntries (pathLower file_path) (nameLower file_path)
        (contentLower file_content) (hasContentB file_content)) with
    | Except.error e => Except.error e
    | Except.ok best =>
      Except.ok (best.1, best.2,
        "Classified as " ++ best.1 ++ " because: " ++
          String.intercalate "; " (reasoningParts (pathLower file_path) (nameLower file_path)
            (contentLower file_content) (hasContentB file_content)))

/-- `FileClassifier.classify_file`: the `try/except` wrapper around the body;
any internal error is converted to the fallback triple. -/
def classify_file (file_path file_content : String) : String × ℚ × String :=
  match classify_file_body file_path file_content with
  | Except.ok r => r
  | Except.error e => ("miscellaneous", 0.1, "Classification error: " ++ e)

/-- The raw (uncapped) score of one category for a given path and content. -/
def fileCatScore (r : ClassRule) (file_path file_content : String) : ℚ :=
  catScore r (pathLower file_path) (nameLower file_path)
    (contentLower file_content) (hasContentB file_content)

/-- The greatest raw category score for a given path and content. -/
def maxFileScore (file_path file_content : String) : ℚ :=
  (classification_rules.map (fun r => fileCatScore r file_path file_content)).foldl max 0

/-! ### Claims C8 and C10 -/

theorem foldl_max_init_le (l : List ℚ) (a : ℚ) : a ≤ l.foldl max a := by
  induction l generalizing a with
  | nil => simp
  | cons x xs ih => exact le_trans (le_max_left a x) (ih (max a x))

theorem foldl_max_le_of_mem {l : List ℚ} {b : ℚ} (h : b ∈ l) (a : ℚ) :
    b ≤ l.foldl max a := by
  induction l generalizing a with
  | nil => cases h
  | cons x xs ih =>
    rcases List.mem_cons.mp h with rfl | h2
    · exact le_trans (le_max_right a b) (foldl_max_init_le xs _)
    · exact ih h2 _

theorem foldl_max_mem (l : List ℚ) (a : ℚ) : l.foldl max a = a ∨ l.foldl max a ∈ l := by
  induction l generalizing a with
  | nil => left; rfl
  | cons x xs ih =>
    rcases ih (max a x) with h | h
    · rcases le_total a x with hax | hxa
      · right
        rw [List.foldl_cons, h, max_eq_right hax]
        exact List.mem_cons_self _ _
      · left
        rw [List.foldl_cons, h, max_eq_left hxa]
    · right
      exact List.mem_cons_of_mem _ h

/-- The running best kept by the Python `max(..., key=...)` loop has the
greatest value among the scanned entries. -/
theorem foldl_best_snd (xs : List (String × ℚ)) (x : String × ℚ) :
    (xs.foldl (fun best y => if best.2 < y.2 then y else best) x).2 =
      (xs.map Prod.snd).foldl max x.2 := by
  induction xs generalizing x with
  | nil => rfl
  | cons y ys ih =>
    rw [List.foldl_cons, List.map_cons, List.foldl_cons, ih]
    congr 1
    rcases lt_or_le x.2 y.2 with h | h
    · rw [if_pos h, max_eq_right h.le]
    · rw [if_neg (not_lt.mpr h), max_eq_left h]

theorem classify_file_body_ok (p c : String) :
    ∃ v, classify_file_body p c = Except.ok v := by
  rw [classify_file_body]
  cases hs : scoreEntries (pathLower p) (nameLower p) (contentLower c) (hasContentB c) with
  | nil => simp
  | cons x xs => simp [pyMaxBySnd]

/-- C10: `classify_file` is total and never propagates an exception: the body
(whose only partial operation, the `max` over the score keys, is guarded by
the emptiness check) always returns a value, and `classify_file` returns
exactly that value; had the body raised, the `except` clause would instead
have produced `('miscellaneous', 0.1, "Classification error: ...")`. -/
theorem classify_file_total (p c : String) :
    classify_file_body p c = Except.ok (classify_file p c) := by
  obtain ⟨v, hv⟩ := classify_file_body_ok p c
  rw [classify_file, hv]

theorem mem_scoreEntries_iff {p c : String} {e : String × ℚ} :
    e ∈ scoreEntries (pathLower p) (nameLower p) (contentLower c) (hasContentB c) ↔
      ∃ r ∈ classification_rules,
        0 < fileCatScore r p c ∧ e = (r.category, min (fileCatScore r p c) 1) := by
  rw [scoreEntries, List.mem_filterMap]
  constructor
  · rintro ⟨r, hr, hf⟩
    by_cases hpos : 0 < catScore r (pathLower p) (nameLower p) (contentLower c) (hasContentB c)
    · rw [if_pos hpos] at hf
      exact ⟨r, hr, hpos, (Option.some_inj.mp hf).symm⟩
    · rw [if_neg hpos] at hf
      exact absurd hf (by simp)
  · rintro ⟨r, hr, hpos, rfl⟩
    exact ⟨r, hr, by
      rw [if_pos (show 0 < catScore r (pathLower p) (nameLower p) (contentLower c)
        (hasContentB c) from hpos)]
      rfl⟩

theorem maxFileScore_ge {p c : String} {r : ClassRule}
    (hr : r ∈ classification_rules) : fileCatScore r p c ≤ maxFileScore p c := by
  exact foldl_max_le_of_mem (List.mem_map_of_mem _ hr) 0

theorem maxFileScore_cases (p c : String) :
    maxFileScore p c = 0 ∨
      ∃ r ∈ classification_rules, fileCatScore r p c = maxFileScore p c := by
  rcases foldl_max_mem (classification_rules.map (fun r => fileCatScore r p c)) 0 with h | h
  · exact Or.inl h
  · rcases List.mem_map.mp h with ⟨r, hr, hv⟩
    exact Or.inr ⟨r, hr, hv⟩

/-- C8: if no category accumulates a strictly positive score,
`classify_file` returns the fixed fallback triple
`('miscellaneous', 0.1, "No specific patterns matched")`; and if some
category scores above 0, the returned confidence equals the greatest raw
category score capped at 1.0. -/
theorem classify_file_fallback_and_cap (p c : String) :
    ((∀ r ∈ classification_rules, ¬ 0 < fileCatScore r p c) →
        classify_file p c = ("miscellaneous", 0.1, "No specific patterns matched")) ∧
      ((∃ r ∈ classification_rules, 0 < fileCatScore r p c) →
        (classify_file p c).2.1 = min (maxFileScore p c) 1) := by
  constructor
  · intro hall
    have hnil : scoreEntries (pathLower p) (nameLower p) (contentLower c) (hasContentB c)
        = [] := by
      rw [scoreEntries, List.filterMap_eq_nil_iff]
      intro r hr
      rw [if_neg (show ¬ 0 < catScore r (pathLower p) (nameLower p) (contentLower c)
        (hasContentB c) from hall r hr)]
    rw [classify_file, classify_file_body, hnil]
    simp
  · rintro ⟨r0, hr0, hpos0⟩
    have hM : 0 < maxFileScore p c := lt_of_lt_of_le hpos0 (maxFileScore_ge hr0)
    have hmem0 : (r0.category, min (fileCatScore r0 p c) 1)
        ∈ scoreEntries (pathLower p) (nameLower p) (contentLower c) (hasContentB c) :=
      mem_scoreEntries_iff.mpr ⟨r0, hr0, hpos0, rfl⟩
    cases hs : scoreEntries (pathLower p) (nameLower p) (contentLower c) (hasContentB c) with
    | nil => rw [hs] at hmem0; cases hmem0
    | cons x xs =>
      rw [classify_file, classify_file_body, hs]
      have hne : ¬ (x :: xs : List (String × ℚ)).isEmpty = true := by simp
      rw [if_neg hne]
      dsimp only [pyMaxBySnd]
      rw [foldl_best_snd]
      have hle : (xs.map Prod.snd).foldl max x.2 ≤ min (maxFileScore p c) 1 := by
        rcases foldl_max_mem (xs.map Prod.snd) x.2 with h | h
        · rw [h]
          have hx : x ∈ scoreEntries (pathLower p) (nameLower p) (contentLower c)
              (hasContentB c) := by rw [hs]; exact List.mem_cons_self _ _
          rcases mem_scoreEntries_iff.mp hx with ⟨r, hr, hp, hxe⟩
          rw [hxe]
          exact min_le_min (maxFileScore_ge hr) le_rfl
        · rcases List.mem_map.mp h with ⟨e, he, hv⟩
          have hx : e ∈ scoreEntries (pathLower p) (nameLower p) (contentLower c)
              (hasContentB c) := by rw [hs]; exact List.mem_cons_of_mem _ he
          rcases mem_scoreEntries_iff.mp hx with ⟨r, hr, hp, hxe⟩
          rw [← hv, hxe]
          exact min_le_min (maxFileScore_ge hr) le_rfl
      have hge : min (maxFileScore p c) 1 ≤ (xs.map Prod.snd).foldl max x.2 := by
        rcases maxFileScore_cases p c with h0 | ⟨rM, hrM, hvM⟩
        · rw [h0] at hM; exact absurd hM (lt_irrefl 0)
        · have hmemM : (rM.category, min (maxFileScore p c) 1)
              ∈ scoreEntries (pathLower p) (nameLower p) (contentLower c) (hasContentB c) :=
            mem_scoreEntries_iff.mpr ⟨rM, hrM, by rw [hvM]; exact hM, by rw [hvM]⟩
          rw [hs] at hmemM
          rcases List.mem_cons.mp hmemM with hx | hx
          · have : min (maxFileScore p c) 1 = x.2 := by rw [← hx]
            rw [this]
            exact foldl_max_init_le _ _
          · exact foldl_max_le_of_mem
              (List.mem_map.mpr ⟨_, hx, rfl⟩) _
      exact le_antisymm hle hge

/-- Both halves of C8 exercised on concrete inputs: on `"zzz"` every category
scores 0 and the fallback triple is returned; on `"invoice_march.pdf"` the
`invoices` category scores a positive 0.7 and the returned confidence is the
capped maximum score. -/
theorem classify_file_fallback_and_cap_witness :
    classify_file "zzz" "" = ("miscellaneous", 0.1, "No specific patterns matched") ∧
      (classify_file "invoice_march.pdf" "").2.1
        = min (maxFileScore "invoice_march.pdf" "") 1 :=
  ⟨(classify_file_fallback_and_cap "zzz" "").1 (by decide),
    (classify_file_fallback_and_cap "invoice_march.pdf" "").2 (by decide)⟩

/-! ## 3. Similarity search (`VectorStore.search`, vector_store.py 464-556)

Embeddings are exact rational vectors. The float cosine similarity
`np.dot(q, v) / (norm(q) * norm(v))` involves a square root, so a result row
carries the pair `(dotQ, normProdSq) = (q·v, ‖q‖²‖v‖²)` instead of the float
score; the real score is `dotQ / √normProdSq` (`simReal` below), and every
comparison the code performs on scores is modelled by the equivalent
division-free rational comparison, proved equivalent over `ℝ`.
When `normProdSq = 0` the float code computes `0.0/0.0 = NaN`, and every
`NaN >= threshold` comparison is `False`; the model's `simAtLeast` is `false`
in that case for the same effect. A row whose stored embedding length
differs from the query's makes `np.dot` raise; the per-row
`except: continue` then skips the row, modelled by the length filter. -/

/-- One row of the `document_chunks JOIN files` query. -/
structure SearchRow where
  content : String
  embedding : List ℚ
  file_path : String
  file_name : String
  file_type : String
  last_modified : String
deriving DecidableEq

/-- One entry of `results`: the selected fields plus the score
representation `(dotQ, normProdSq)`. -/
structure SearchResult where
  content : String
  file_path : String
  file_name : String
  file_type : String
  last_modified : String
  dotQ : ℚ
  normProdSq : ℚ
deriving DecidableEq

/-- `np.dot` on equal-length rational vectors. -/
def dotQ (v w : List ℚ) : ℚ := (List.zipWith (fun a b => a * b) v w).sum

/-- Squared Euclidean norm `‖v‖²` (`np.linalg.norm(v)**2`). -/
def normSq (v : List ℚ) : ℚ := dotQ v v

/-- `similarity >= threshold` on the score representation: for
`normProdSq = 0` the float similarity is `NaN` and the comparison is
`False`; otherwise `d/√p ≥ t ⟺ t·|t|·p ≤ d·|d|` (for `p > 0`). -/
def simAtLeast (d p t : ℚ) : Bool :=
  decide (p ≠ 0) && decide (t * |t| * p ≤ d * |d|)

/-- The sort key standing in for the float score: the strictly monotone image
`s·|s|` of the score `s = d/√p` equals `d·|d|/p`. -/
def simKey (r : SearchResult) : ℚ := r.dotQ * |r.dotQ| / r.normProdSq

/-- Assemble one `results.append({...})` record for a row. -/
def toResult (q : List ℚ) (r : SearchRow) : SearchResult :=
  { content := r.content
  , file_path := r.file_path
  , file_name := r.file_name
  , file_type := r.file_type
  , last_modified := r.last_modified
  , dotQ := dotQ q r.embedding
  , normProdSq := normSq q * normSq r.embedding }

/-- `VectorStore.search`: scan all joined rows, skip rows whose `np.dot`
raises (length mismatch), keep rows with `similarity >= threshold`, sort by
descending similarity, truncate to `limit`. -/
def search (q : List ℚ) (rows : List SearchRow) (limit : Nat) (t : ℚ) :
    List SearchResult :=
  ((((rows.filter (fun r => r.embedding.length == q.length)).map (toResult q)).filter
      (fun s => simAtLeast s.dotQ s.normProdSq t)).mergeSort
      (fun a b => decide (simKey b ≤ simKey a))).take limit

/-- The real similarity score `d / √p` a result stands for. -/
noncomputable def simReal (r : SearchResult) : ℝ :=
  (r.dotQ : ℝ) / Real.sqrt (r.normProdSq : ℝ)

/-! ### Claims C2 and C7 -/

theorem mul_abs_strictMono : StrictMono (fun x : ℝ => x * |x|) := by
  intro a b h
  dsimp only
  rcases le_or_lt 0 a with ha | ha
  · rw [abs_of_nonneg ha, abs_of_nonneg (le_trans ha h.le)]
    nlinarith
  · rcases le_or_lt 0 b with hb | hb
    · rw [abs_of_neg ha, abs_of_nonneg hb]
      nlinarith
    · rw [abs_of_neg ha, abs_of_neg hb]
      nlinarith

theorem mul_abs_div_sqrt {d p : ℝ} (hp : 0 < p) :
    (d / Real.sqrt p) * |d / Real.sqrt p| = d * |d| / p := by
  rw [abs_div, abs_of_nonneg (Real.sqrt_nonneg _), div_mul_div_comm,
    Real.mul_self_sqrt hp.le]

theorem normSq_nonneg (v : List ℚ) : 0 ≤ normSq v := by
  rw [normSq, dotQ, List.zipWith_same]
  exact List.sum_nonneg (by
    intro x hx
    rcases List.mem_map.mp hx with ⟨a, _, rfl⟩
    exact mul_self_nonneg a)

/-- For a result with positive norm product, `simAtLeast` decides exactly
`threshold ≤ real score`. -/
theorem simAtLeast_iff {d p t : ℚ} (hp : 0 < p) :
    simAtLeast d p t = true ↔ (t : ℝ) ≤ (d : ℝ) / Real.sqrt (p : ℝ) := by
  rw [simAtLeast, Bool.and_eq_true, decide_eq_true_iff, decide_eq_true_iff]
  have hp' : (0 : ℝ) < (p : ℝ) := by exact_mod_cast hp
  constructor
  · rintro ⟨-, hle⟩
    have hle' : (t : ℝ) * |(t : ℝ)| * (p : ℝ) ≤ (d : ℝ) * |(d : ℝ)| := by
      exact_mod_cast hle
    have : (t : ℝ) * |(t : ℝ)| ≤ ((d : ℝ) / Real.sqrt (p : ℝ)) *
        |(d : ℝ) / Real.sqrt (p : ℝ)| := by
      rw [mul_abs_div_sqrt hp']
      rw [le_div_iff₀ hp']
      exact hle'
    exact mul_abs_strictMono.le_iff_le.mp this
  · intro hle
    refine ⟨ne_of_gt hp, ?_⟩
    have : (t : ℝ) * |(t : ℝ)| ≤ ((d : ℝ) / Real.sqrt (p : ℝ)) *
        |(d : ℝ) / Real.sqrt (p : ℝ)| := mul_abs_strictMono.le_iff_le.mpr hle
    rw [mul_abs_div_sqrt hp', le_div_iff₀ hp'] at this
    have : ((t * |t| * p : ℚ) : ℝ) ≤ ((d * |d| : ℚ) : ℝ) := by
      push_cast
      exact this
    exact_mod_cast this

/-- For results with positive norm products, the rational sort key decides
exactly the comparison of the real scores. -/
theorem simKey_le_iff {a b : SearchResult} (hpa : 0 < a.normProdSq)
    (hpb : 0 < b.normProdSq) : simKey b ≤ simKey a ↔ simReal b ≤ simReal a := by
  have hpa' : (0 : ℝ) < (a.normProdSq : ℝ) := by exact_mod_cast hpa
  have hpb' : (0 : ℝ) < (b.normProdSq : ℝ) := by exact_mod_cast hpb
  have key_cast : ∀ (r : SearchResult), 0 < r.normProdSq →
      ((simKey r : ℚ) : ℝ) = simReal r * |simReal r| := by
    intro r hp
    have hp' : (0 : ℝ) < (r.normProdSq : ℝ) := by exact_mod_cast hp
    rw [simKey, simReal, mul_abs_div_sqrt hp']
    push_cast
    rfl
  constructor
  · intro h
    have h' : ((simKey b : ℚ) : ℝ) ≤ ((simKey a : ℚ) : ℝ) := by exact_mod_cast h
    rw [key_cast a hpa, key_cast b hpb] at h'
    exact mul_abs_strictMono.le_iff_le.mp h'
  · intro h
    have h' : simReal b * |simReal b| ≤ simReal a * |simReal a| :=
      mul_abs_strictMono.le_iff_le.mpr h
    rw [← key_cast a hpa, ← key_cast b hpb] at h'
    exact_mod_cast h'

/-- Every result kept by the threshold filter has a positive norm product
(the `NaN` rows are excluded, and norm products are never negative). -/
theorem pos_of_simAtLeast {q : List ℚ} {rows : List SearchRow} {t : ℚ}
    {s : SearchResult}
    (hs : s ∈ ((rows.filter (fun r => r.embedding.length == q.length)).map
      (toResult q)).filter (fun s => simAtLeast s.dotQ s.normProdSq t)) :
    0 < s.normProdSq := by
  rcases List.mem_filter.mp hs with ⟨hmem, hsim⟩
  rcases List.mem_map.mp hmem with ⟨r, _, rfl⟩
  rw [simAtLeast, Bool.and_eq_true, decide_eq_true_iff] at hsim
  have hnz := hsim.1
  have hge : 0 ≤ (toResult q r).normProdSq :=
    mul_nonneg (normSq_nonneg q) (normSq_nonneg r.embedding)
  exact lt_of_le_of_ne hge (Ne.symm hnz)

theorem mem_search_kept {q : List ℚ} {rows : List SearchRow} {limit : Nat} {t : ℚ}
    {s : SearchResult} (hs : s ∈ search q rows limit t) :
    s ∈ ((rows.filter (fun r => r.embedding.length == q.length)).map (toResult q)).filter
      (fun s => simAtLeast s.dotQ s.normProdSq t) := by
  rw [search] at hs
  exact List.mem_mergeSort.mp (List.mem_of_mem_take hs)

/-- C2: `search` returns at most `limit` results, every returned result's
similarity score is at least the threshold, the returned list is sorted in
descending order of similarity score, and with zero stored chunks the
result is the empty list. -/
theorem search_spec (q : List ℚ) (rows : List SearchRow) (limit : Nat) (t : ℚ) :
    (search q rows limit t).length ≤ limit ∧
      (∀ s ∈ search q rows limit t, (t : ℝ) ≤ simReal s) ∧
      (search q rows limit t).Pairwise (fun a b => simReal b ≤ simReal a) ∧
      (rows = [] → search q rows limit t = []) := by
  refine ⟨?_, ?_, ?_, ?_⟩
  · rw [search, List.length_take]
    exact min_le_left _ _
  · intro s hs
    have hk := mem_search_kept hs
    have hpos := pos_of_simAtLeast hk
    have hsim := (List.mem_filter.mp hk).2
    exact (simAtLeast_iff hpos).mp hsim
  · have htrans : ∀ a b c : SearchResult, decide (simKey b ≤ simKey a) →
        decide (simKey c ≤ simKey b) → decide (simKey c ≤ simKey a) := by
      intro a b c hab hbc
      simp only [decide_eq_true_iff] at hab hbc ⊢
      exact le_trans hbc hab
    have htotal : ∀ a b : SearchResult,
        decide (simKey b ≤ simKey a) || decide (simKey a ≤ simKey b) := by
      intro a b
      simp only [Bool.or_eq_true, decide_eq_true_iff]
      exact le_total _ _
    have hsorted := List.sorted_mergeSort htrans htotal
      (((rows.filter (fun r => r.embedding.length == q.length)).map (toResult q)).filter
        (fun s => simAtLeast s.dotQ s.normProdSq t))
    have htake : (search q rows limit t).Pairwise
        (fun a b => decide (simKey b ≤ simKey a) = true) := by
      rw [search]
      exact hsorted.sublist (List.take_sublist _ _)
    refine htake.imp_of_mem ?_
    intro a b ha hb hab
    have hpa := pos_of_simAtLeast (mem_search_kept ha)
    have hpb := pos_of_simAtLeast (mem_search_kept hb)
    exact (simKey_le_iff hpa hpb).mp (by simpa using hab)
  · intro h
    subst h
    simp [search]

theorem search_spec_witness :
    search [(1 : ℚ)] [] 10 0.3 = [] ∧ (search [(1 : ℚ)] [] 10 0.3).length ≤ 10 :=
  ⟨(search_spec [(1 : ℚ)] [] 10 0.3).2.2.2 rfl, (search_spec [(1 : ℚ)] [] 10 0.3).1⟩

theorem kept_filter_zero_norm (q : List ℚ) (t : ℚ) : ∀ rows : List SearchRow,
    ((rows.filter (fun r => r.embedding.length == q.length)).map (toResult q)).filter
        (fun s => simAtLeast s.dotQ s.normProdSq t)
      = (((rows.filter (fun r => !(normSq q * normSq r.embedding == 0))).filter
          (fun r => r.embedding.length == q.length)).map (toResult q)).filter
        (fun s => simAtLeast s.dotQ s.normProdSq t) := by
  intro rows
  induction rows with
  | nil => rfl
  | cons r rs ih =>
    by_cases hz : normSq q * normSq r.embedding = 0
    · by_cases hlen : r.embedding.length == q.length
      · simp only [List.filter_cons, hz, hlen, beq_self_eq_true, Bool.not_true, if_true,
          if_false, List.map_cons]
        have hsim : simAtLeast (toResult q r).dotQ (toResult q r).normProdSq t = false := by
          rw [simAtLeast, toResult]
          simp [hz]
        simp [hsim, ih]
      · simp [List.filter_cons, hz, hlen, ih]
    · by_cases hlen : r.embedding.length == q.length
      · simp [List.filter_cons, hz, hlen, ih]
      · simp [List.filter_cons, hz, hlen, ih]

/-- C7 (amended): a pair whose norm product is zero (`NaN` float similarity)
never raises; it is silently excluded from the results, exactly as if the row
were absent. This coincides with treating the pair as having similarity 0
precisely when the threshold is positive: for `0 < t` a zero-norm row and a
genuine similarity-0 row are both dropped. (For `t ≤ 0` the behaviours
differ; see the counterexample.) -/
theorem search_zero_norm (q : List ℚ) (rows : List SearchRow) (limit : Nat) (t : ℚ) :
    (search q rows limit t
        = search q (rows.filter (fun r => !(normSq q * normSq r.embedding == 0))) limit t) ∧
      (0 < t → ∀ r : SearchRow,
        normSq q * normSq r.embedding = 0 ∨ dotQ q r.embedding = 0 →
          search q (r :: rows) limit t = search q rows limit t) := by
  constructor
  · rw [search, search, kept_filter_zero_norm q t rows]
  · intro ht r hdz
    rw [search, search]
    have hk : (((r :: rows).filter (fun r => r.embedding.length == q.length)).map
          (toResult q)).filter (fun s => simAtLeast s.dotQ s.normProdSq t)
        = ((rows.filter (fun r => r.embedding.length == q.length)).map
          (toResult q)).filter (fun s => simAtLeast s.dotQ s.normProdSq t) := by
      by_cases hlen : r.embedding.length == q.length
      · have hsim : simAtLeast (toResult q r).dotQ (toResult q r).normProdSq t = false := by
          by_cases hp : normSq q * normSq r.embedding = 0
          · rw [simAtLeast, toResult]
            simp [hp]
          · have hd : dotQ q r.embedding = 0 := by tauto
            have hppos : 0 < normSq q * normSq r.embedding :=
              lt_of_le_of_ne (mul_nonneg (normSq_nonneg q) (normSq_nonneg r.embedding))
                (Ne.symm hp)
            rw [simAtLeast, toResult]
            simp only [hd, Bool.and_eq_false_iff, decide_eq_false_iff_not, not_not, not_le]
            right
            have htt : 0 < t * |t| := mul_pos ht (abs_pos.mpr (ne_of_gt ht))
            simp only [abs_zero, mul_zero, zero_mul]
            exact mul_pos htt hppos
        simp [List.filter_cons, hlen, hsim]
      · simp [List.filter_cons, hlen]
    rw [hk]

/-- A stored chunk orthogonal to the query `[1, 0]`: genuine similarity 0. -/
def rowOrth : SearchRow :=
  { content := "c", embedding := [0, 1], file_path := "p", file_name := "n"
  , file_type := "t", last_modified := "m" }

/-- A stored chunk with a zero-norm embedding: float similarity `NaN`. -/
def rowZeroEmb : SearchRow :=
  { content := "c", embedding := [0, 0], file_path := "p", file_name := "n"
  , file_type := "t", last_modified := "m" }

/-- C7 (counterexample): at threshold 0 a pair with similarity exactly 0 is
returned (`0 >= 0`), but the zero-norm pair is not (`NaN >= 0` is `False`) —
so the zero-norm pair is *not* treated exactly as a similarity-0 pair.
(No division error is raised in either case.) -/
theorem search_zero_norm_cex :
    normSq rowZeroEmb.embedding = 0 ∧
      dotQ [(1 : ℚ), 0] rowOrth.embedding = 0 ∧
      search [(1 : ℚ), 0] [rowZeroEmb] 10 0 = [] ∧
      search [(1 : ℚ), 0] [rowOrth] 10 0 ≠ [] := by
  refine ⟨by decide, by decide, ?_, ?_⟩
  · simp [search, rowZeroEmb, toResult, simAtLeast, normSq, dotQ]
  · simp [search, rowOrth, toResult, simAtLeast, normSq, dotQ]

theorem search_zero_norm_witness :
    search [(1 : ℚ), 0] [rowOrth] 10 1 = search [(1 : ℚ), 0] [] 10 1 :=
  (search_zero_norm [(1 : ℚ), 0] [] 10 1).2 (by decide) rowOrth (Or.inr (by decide))

/-! ## 4. The persistent store (`VectorStore`, vector_store.py)

The SQLite schema of `_create_tables` (vector_store.py 68-137) with
`PRAGMA foreign_keys = ON` (line 26): tables are lists of rows, the
`AUTOINCREMENT` counters are explicit, `INSERT OR REPLACE` deletes every
row conflicting on the `UNIQUE` path column and the `ON DELETE CASCADE`
foreign keys then delete the dependent rows (children folders recursively,
files of deleted folders, chunks of deleted files). A statement that
violates a foreign-key constraint raises in Python; the model returns
`none` and leaves the database unchanged (statement-level atomicity). -/

/-- A row of the `folders` table. -/
structure FolderRow where
  id : Nat
  path : String
  name : String
  parent_id : Option Nat
  level : Nat
  last_indexed : String
deriving DecidableEq

/-- A row of the `files` table. -/
structure FileRow where
  id : Nat
  folder_id : Option Nat
  file_path : String
  file_name : String
  file_type : String
  file_size : Nat
  last_modified : String
  content_hash : String
deriving DecidableEq

/-- A row of the `document_chunks` table. -/
structure ChunkRow where
  id : Nat
  file_id : Option Nat
  chunk_index : Nat
  content : String
  embedding : List ℚ
deriving DecidableEq

/-- The database: the three tables the claims are about, plus the
`AUTOINCREMENT` counters (`sqlite_sequence`). -/
structure DB where
  folders : List FolderRow
  files : List FileRow
  chunks : List ChunkRow
  nextFolderId : Nat
  nextFileId : Nat
  nextChunkId : Nat
deriving DecidableEq

def folderIds (db : DB) : List Nat := db.folders.map (fun f => f.id)

def fileIds (db : DB) : List Nat := db.files.map (fun fl => fl.id)

/-- One round of the `folders.parent_id ON DELETE CASCADE` propagation:
add every folder whose parent is already being deleted. -/
def cascadeStep (folders : List FolderRow) (D : Finset ℕ) : Finset ℕ :=
  D ∪ ((folders.filter (fun f =>
      match f.parent_id with
      | some p => decide (p ∈ D)
      | none => false)).map (fun f => f.id)).toFinset

def cascadeIter (folders : List FolderRow) (roots : Finset ℕ) : Nat → Finset ℕ
  | 0 => roots
  | n + 1 => cascadeStep folders (cascadeIter folders roots n)

/-- The set of folder ids deleted when the folders in `roots` are deleted
with `ON DELETE CASCADE`: the least set containing `roots` and closed under
the child relation (reached after at most `folders.length` rounds). -/
def cascadeClosure (folders : List FolderRow) (roots : Finset ℕ) : Finset ℕ :=
  cascadeIter folders roots folders.length

/-- `CascadeDeleted folders roots x`: folder id `x` is deleted when the ids
in `roots` are deleted — `x` is a root or a transitive child of one. -/
inductive CascadeDeleted (folders : List FolderRow) (roots : Finset ℕ) : Nat → Prop
  | base (x : Nat) : x ∈ roots → CascadeDeleted folders roots x
  | step (f : FolderRow) (p : Nat) : f ∈ folders → f.parent_id = some p →
      CascadeDeleted folders roots p → CascadeDeleted folders roots f.id

/-- Delete the folders in `D` together with the files of those folders and
the chunks of those files (the two `ON DELETE CASCADE` chains). -/
def removeFolderCascade (db : DB) (D : Finset ℕ) : DB :=
  let deadFileIds := (db.files.filter (fun fl =>
      match fl.folder_id with
      | some g => decide (g ∈ D)
      | none => false)).map (fun fl => fl.id)
  { db with
    folders := db.folders.filter (fun f => decide (f.id ∉ D))
  , files := db.files.filter (fun fl =>
      match fl.folder_id with
      | some g => decide (g ∉ D)
      | none => true)
  , chunks := db.chunks.filter (fun c =>
      match c.file_id with
      | some fid => decide (fid ∉ deadFileIds)
      | none => true) }

/-- `VectorStore.remove_folder` (vector_store.py 657-675): look the folder
up; if absent, do nothing; otherwise delete it, cascading. -/
def remove_folder (db : DB) (folder_id : Nat) : DB :=
  if db.folders.any (fun f => f.id == folder_id) then
    removeFolderCascade db (cascadeClosure db.folders {folder_id})
  else db

/-- `Path(p).name` for the POSIX paths used here. -/
def lastComponent (p : String) : String := String.mk (fileNameOf p.data)

/-- The folder ids deleted by the `INSERT OR REPLACE` of `add_folder`: the
rows sharing the inserted path, closed under the child cascade. -/
def addFolderVictims (db : DB) (folder_path : String) : Finset ℕ :=
  cascadeClosure db.folders
    ((db.folders.filter (fun f => f.path == folder_path)).map (fun f => f.id)).toFinset

/-- The `parent_id` foreign-key check of the `add_folder` insert: the parent
must exist and must survive the REPLACE cascade. -/
def addFolderFkOk (db : DB) (folder_path : String) (parent_id : Option Nat) : Bool :=
  match parent_id with
  | some pid => decide (pid ∈ folderIds db) && decide (pid ∉ addFolderVictims db folder_path)
  | none => true

/-- The `level` computed by `add_folder` before the insert (Python
`if parent_id:` is false for `None` and `0`; a missing parent leaves 0). -/
def addFolderLevel (db : DB) (parent_id : Option Nat) : Nat :=
  match parent_id with
  | some pid =>
    if pid ≠ 0 then
      match db.folders.find? (fun f => f.id == pid) with
      | some parent => parent.level + 1
      | none => 0
    else 0
  | none => 0

/-- `VectorStore.add_folder` (vector_store.py 205-229): compute `level` from
the parent, then `INSERT OR REPLACE` keyed on the unique `path`: any
existing row with that path is deleted (cascading to its descendant
folders, their files and those files' chunks) and a fresh row with a fresh
id is inserted. If the given parent does not exist — or was itself deleted
by the cascade — the insert violates the `parent_id` foreign key and the
statement fails (`none`). -/
def add_folder (db : DB) (folder_path : String) (parent_id : Option Nat)
    (now : String) : Option (DB × Nat) :=
  if addFolderFkOk db folder_path parent_id then
    let db' := removeFolderCascade db (addFolderVictims db folder_path)
    some ({ db' with
            folders := db'.folders ++
              [{ id := db.nextFolderId, path := folder_path
               , name := lastComponent folder_path, parent_id := parent_id
               , level := addFolderLevel db parent_id, last_indexed := now }]
          , nextFolderId := db.nextFolderId + 1 }, db.nextFolderId)
  else none

/-- The `file_info` dictionary fields `add_file` reads (with its `.get`
defaults already resolved by the caller). -/
structure FileMeta where
  name : String
  ftype : String
  size : Nat
  modified : String
  hash : String
deriving DecidableEq

/-- The state after a successful `add_file`: the conflicting same-path rows
are deleted, their chunks cascade away, and the fresh row is inserted. -/
def addFileResult (db : DB) (folder_id : Nat) (file_path : String) (info : FileMeta) :
    DB :=
  { db with
    files := db.files.filter (fun fl => !(fl.file_path == file_path)) ++
      [{ id := db.nextFileId, folder_id := some folder_id
       , file_path := file_path, file_name := info.name
       , file_type := info.ftype, file_size := info.size
       , last_modified := info.modified, content_hash := info.hash }],
    chunks := db.chunks.filter (fun c =>
      match c.file_id with
      | some fid => decide (fid ∉
          (db.files.filter (fun fl => fl.file_path == file_path)).map (fun fl => fl.id))
      | none => true),
    nextFileId := db.nextFileId + 1 }

/-- `VectorStore.add_file` (vector_store.py 419-442): `INSERT OR REPLACE`
keyed on the unique `file_path`: any existing row with that path is deleted
— cascading to its chunks — and a fresh row with a fresh id is inserted and
returned (`cursor.lastrowid`). An unknown `folder_id` violates the foreign
key and raises (`none`). -/
def add_file (db : DB) (folder_id : Nat) (file_path : String) (info : FileMeta) :
    Option (DB × Nat) :=
  if folder_id ∈ folderIds db then
    some (addFileResult db folder_id file_path info, db.nextFileId)
  else none

/-- `VectorStore.add_document_chunk` (vector_store.py 444-462): a plain
`INSERT`; an unknown `file_id` violates the foreign key and raises. -/
def add_document_chunk (db : DB) (file_id : Nat) (chunk_index : Nat)
    (content : String) (embedding : List ℚ) : Option DB :=
  if file_id ∈ fileIds db then
    some { db with
           chunks := db.chunks ++
             [{ id := db.nextChunkId, file_id := some file_id
              , chunk_index := chunk_index, content := content
              , embedding := embedding }]
         , nextChunkId := db.nextChunkId + 1 }
  else none

/-- Store one indexing run's chunk list via `add_document_chunk`, in order
(the `for i, chunk in enumerate(chunks)` loop of the indexer). -/
def add_chunks (db : DB) (file_id : Nat) :
    List (Nat × String × List ℚ) → Option DB
  | [] => some db
  | (i, s, e) :: rest =>
    match add_document_chunk db file_id i s e with
    | some db' => add_chunks db' file_id rest
    | none => none

/-- Well-formedness of a database state: what SQLite's constraints
(`PRIMARY KEY AUTOINCREMENT`, the foreign keys) guarantee for every state
the program can actually reach. -/
structure DBWF (db : DB) : Prop where
  folders_lt : ∀ f ∈ db.folders, f.id < db.nextFolderId
  files_lt : ∀ fl ∈ db.files, fl.id < db.nextFileId
  folders_nodup : (db.folders.map (fun f => f.id)).Nodup
  files_nodup : (db.files.map (fun fl => fl.id)).Nodup
  folders_fk : ∀ f ∈ db.folders, ∀ p, f.parent_id = some p → p ∈ folderIds db
  files_fk : ∀ fl ∈ db.files, ∀ g, fl.folder_id = some g → g ∈ folderIds db
  chunks_fk : ∀ c ∈ db.chunks, ∀ fid, c.file_id = some fid → fid ∈ fileIds db

theorem subset_cascadeStep (folders : List FolderRow) (D : Finset ℕ) :
    D ⊆ cascadeStep folders D :=
  Finset.subset_union_left

theorem cascadeIter_le_subset (folders : List FolderRow) (roots : Finset ℕ)
    {m n : Nat} (h : m ≤ n) :
    cascadeIter folders roots m ⊆ cascadeIter folders roots n := by
  induction n with
  | zero => rw [Nat.le_zero.mp h]
  | succ k ih =>
    rcases Nat.lt_or_ge m (k + 1) with hm | hm
    · exact (ih (Nat.lt_succ_iff.mp hm)).trans (subset_cascadeStep _ _)
    · rw [Nat.le_antisymm h hm]

theorem cascadeIter_sound (folders : List FolderRow) (roots : Finset ℕ) :
    ∀ (n : Nat) (x : Nat), x ∈ cascadeIter folders roots n →
      CascadeDeleted folders roots x := by
  intro n
  induction n with
  | zero => intro x hx; exact CascadeDeleted.base x hx
  | succ k ih =>
    intro x hx
    rcases Finset.mem_union.mp hx with hx | hx
    · exact ih x hx
    · rcases List.mem_toFinset.mp hx with hx
      rcases List.mem_map.mp hx with ⟨f, hf, rfl⟩
      rcases List.mem_filter.mp hf with ⟨hfmem, hcond⟩
      rcases hpar : f.parent_id with _ | p
      · rw [hpar] at hcond; exact absurd hcond (by simp)
      · rw [hpar] at hcond
        have hp : p ∈ cascadeIter folders roots k := of_decide_eq_true hcond
        exact CascadeDeleted.step f p hfmem hpar (ih p hp)

theorem cascadeIter_bounded (folders : List FolderRow) (roots : Finset ℕ) :
    ∀ n : Nat, cascadeIter folders roots n ⊆
      roots ∪ (folders.map (fun f => f.id)).toFinset := by
  intro n
  induction n with
  | zero => exact Finset.subset_union_left
  | succ k ih =>
    intro x hx
    rcases Finset.mem_union.mp hx with hx | hx
    · exact ih hx
    · rcases List.mem_toFinset.mp hx with hx
      rcases List.mem_map.mp hx with ⟨f, hf, rfl⟩
      exact Finset.mem_union_right _
        (List.mem_toFinset.mpr (List.mem_map_of_mem _ (List.mem_of_mem_filter hf)))

theorem cascadeIter_saturates (folders : List FolderRow) (roots : Finset ℕ) :
    ∃ k ≤ folders.length,
      cascadeIter folders roots (k + 1) = cascadeIter folders roots k := by
  by_contra hno
  push_neg at hno
  have hgrow : ∀ k, k ≤ folders.length + 1 →
      roots.card + k ≤ (cascadeIter folders roots k).card := by
    intro k
    induction k with
    | zero => intro _; simp [cascadeIter]
    | succ j ih =>
      intro hj
      have hj' : j ≤ folders.length := by omega
      have hne := hno j hj'
      have hsub : cascadeIter folders roots j ⊂ cascadeIter folders roots (j + 1) :=
        lt_of_le_of_ne (subset_cascadeStep _ _) (Ne.symm hne)
      have := Finset.card_lt_card hsub
      have := ih (by omega)
      omega
  have hub : (cascadeIter folders roots (folders.length + 1)).card ≤
      roots.card + folders.length := by
    calc (cascadeIter folders roots (folders.length + 1)).card
        ≤ (roots ∪ (folders.map (fun f => f.id)).toFinset).card :=
          Finset.card_le_card (cascadeIter_bounded folders roots _)
      _ ≤ roots.card + (folders.map (fun f => f.id)).toFinset.card :=
          Finset.card_union_le _ _
      _ ≤ roots.card + folders.length := by
          have := (folders.map (fun f => f.id)).toFinset_card_le
          simp only [List.length_map] at this
          omega
  have := hgrow (folders.length + 1) le_rfl
  omega

theorem cascadeIter_stable (folders : List FolderRow) (roots : Finset ℕ) {k : Nat}
    (hfix : cascadeIter folders roots (k + 1) = cascadeIter folders roots k) :
    ∀ j, cascadeIter folders roots (k + j) = cascadeIter folders roots k := by
  intro j
  induction j with
  | zero => rfl
  | succ i ih =>
    have : k + (i + 1) = (k + i) + 1 := by omega
    rw [this]
    show cascadeStep folders (cascadeIter folders roots (k + i)) = _
    rw [ih]
    exact hfix

theorem cascadeClosure_fixed (folders : List FolderRow) (roots : Finset ℕ) :
    cascadeStep folders (cascadeClosure folders roots) = cascadeClosure folders roots := by
  obtain ⟨k, hk, hfix⟩ := cascadeIter_saturates folders roots
  have h1 : cascadeClosure folders roots = cascadeIter folders roots k := by
    rw [cascadeClosure]
    have : folders.length = k + (folders.length - k) := by omega
    rw [this]
    exact cascadeIter_stable folders roots hfix _
  have h2 : cascadeStep folders (cascadeIter folders roots k)
      = cascadeIter folders roots k := hfix
  rw [h1]
  exact h2

theorem cascadeClosure_complete (folders : List FolderRow) (roots : Finset ℕ)
    {x : Nat} (h : CascadeDeleted folders roots x) :
    x ∈ cascadeClosure folders roots := by
  induction h with
  | base y hy =>
    exact cascadeIter_le_subset folders roots (Nat.zero_le _) hy
  | step f p hf hpar _ ih =>
    rw [← cascadeClosure_fixed folders roots]
    refine Finset.mem_union_right _ (List.mem_toFinset.mpr ?_)
    refine List.mem_map_of_mem _ (List.mem_filter.mpr ⟨hf, ?_⟩)
    rw [hpar]
    exact decide_eq_true ih

/-- The executable cascade set contains exactly the folder ids that are in
`roots` or transitively reachable down the parent links from `roots`. -/
theorem mem_cascadeClosure_iff {folders : List FolderRow} {roots : Finset ℕ}
    {x : Nat} :
    x ∈ cascadeClosure folders roots ↔ CascadeDeleted folders roots x :=
  ⟨cascadeIter_sound folders roots _ x, cascadeClosure_complete folders roots⟩

theorem remove_folder_eq_cascade {db : DB} {fid : Nat} (hmem : fid ∈ folderIds db) :
    remove_folder db fid = removeFolderCascade db (cascadeClosure db.folders {fid}) := by
  rcases List.mem_map.mp hmem with ⟨f, hf, rfl⟩
  rw [remove_folder, if_pos]
  exact List.any_eq_true.mpr ⟨f, hf, beq_self_eq_true _⟩

/-- C3: `remove_folder` deletes the folder together with every transitively
descendant folder, every file owned by any deleted folder, and every chunk
of any deleted file; rows not referencing the removed folder (directly or
transitively) all remain; and the result has no orphans: every surviving
folder's parent, every surviving file's folder and every surviving chunk's
file still exists. -/
theorem remove_folder_spec (db : DB) (hwf : DBWF db) (fid : Nat)
    (hmem : fid ∈ folderIds db) :
    (∀ g ∈ (remove_folder db fid).folders,
        g ∈ db.folders ∧ ¬ CascadeDeleted db.folders {fid} g.id) ∧
      (∀ g ∈ db.folders, ¬ CascadeDeleted db.folders {fid} g.id →
        g ∈ (remove_folder db fid).folders) ∧
      (∀ fl ∈ (remove_folder db fid).files, fl ∈ db.files ∧
        ∀ gid, fl.folder_id = some gid → ¬ CascadeDeleted db.folders {fid} gid) ∧
      (∀ fl ∈ db.files,
        (∀ gid, fl.folder_id = some gid → ¬ CascadeDeleted db.folders {fid} gid) →
        fl ∈ (remove_folder db fid).files) ∧
      (∀ c ∈ (remove_folder db fid).chunks, c ∈ db.chunks) ∧
      (∀ c ∈ db.chunks, ∀ fl ∈ db.files, ∀ fid', c.file_id = some fid' → fl.id = fid' →
        (∀ gid, fl.folder_id = some gid → ¬ CascadeDeleted db.folders {fid} gid) →
        c ∈ (remove_folder db fid).chunks) ∧
      (∀ c ∈ db.chunks, ∀ fl ∈ db.files, ∀ fid' gid, c.file_id = some fid' →
        fl.id = fid' → fl.folder_id = some gid → CascadeDeleted db.folders {fid} gid →
        c ∉ (remove_folder db fid).chunks) ∧
      (∀ g ∈ (remove_folder db fid).folders, ∀ p, g.parent_id = some p →
        p ∈ (remove_folder db fid).folders.map (fun f => f.id)) ∧
      (∀ fl ∈ (remove_folder db fid).files, ∀ gid, fl.folder_id = some gid →
        gid ∈ (remove_folder db fid).folders.map (fun f => f.id)) ∧
      (∀ c ∈ (remove_folder db fid).chunks, ∀ fid', c.file_id = some fid' →
        fid' ∈ (remove_folder db fid).files.map (fun fl => fl.id)) := by
  have hrm := remove_folder_eq_cascade hmem
  set D := cascadeClosure db.folders {fid} with hD
  -- characterisations of the three filters
  have hfol : ∀ g, g ∈ (remove_folder db fid).folders ↔ g ∈ db.folders ∧ g.id ∉ D := by
    intro g
    rw [hrm, removeFolderCascade]
    simp [List.mem_filter]
  have hfilpred : ∀ (fl : FileRow),
      (match fl.folder_id with
        | some g => decide (g ∉ D)
        | none => true) = true ↔ ∀ gid, fl.folder_id = some gid → gid ∉ D := by
    intro fl
    rcases hfo : fl.folder_id with _ | g
    · simp
    · simp
  have hfil : ∀ fl, fl ∈ (remove_folder db fid).files ↔
      fl ∈ db.files ∧ ∀ gid, fl.folder_id = some gid → gid ∉ D := by
    intro fl
    rw [hrm, removeFolderCascade]
    simp only [List.mem_filter]
    exact and_congr_right (fun _ => hfilpred fl)
  have hdead : ∀ fid' : Nat,
      fid' ∈ (db.files.filter (fun fl =>
        match fl.folder_id with
        | some g => decide (g ∈ D)
        | none => false)).map (fun fl => fl.id) ↔
      ∃ fl ∈ db.files, fl.id = fid' ∧ ∃ gid, fl.folder_id = some gid ∧ gid ∈ D := by
    intro fid'
    simp only [List.mem_map, List.mem_filter]
    constructor
    · rintro ⟨fl, ⟨hfl, hpred⟩, rfl⟩
      rcases hfo : fl.folder_id with _ | g
      · rw [hfo] at hpred; exact absurd hpred (by simp)
      · rw [hfo] at hpred
        exact ⟨fl, hfl, rfl, g, hfo, of_decide_eq_true hpred⟩
    · rintro ⟨fl, hfl, rfl, gid, hfo, hgid⟩
      exact ⟨fl, ⟨hfl, by rw [hfo]; exact decide_eq_true hgid⟩, rfl⟩
  have hchk : ∀ c, c ∈ (remove_folder db fid).chunks ↔
      c ∈ db.chunks ∧ ∀ fid', c.file_id = some fid' →
        fid' ∉ (db.files.filter (fun fl =>
          match fl.folder_id with
          | some g => decide (g ∈ D)
          | none => false)).map (fun fl => fl.id) := by
    intro c
    rw [hrm, removeFolderCascade]
    simp only [List.mem_filter]
    refine and_congr_right (fun _ => ?_)
    rcases hfo : c.file_id with _ | fid'
    · simp
    · simp
  have hmemD : ∀ x, x ∈ D ↔ CascadeDeleted db.folders {fid} x :=
    fun x => mem_cascadeClosure_iff
  refine ⟨?_, ?_, ?_, ?_, ?_, ?_, ?_, ?_, ?_, ?_⟩
  · intro g hg
    rcases (hfol g).mp hg with ⟨hgm, hgd⟩
    exact ⟨hgm, fun hr => hgd ((hmemD _).mpr hr)⟩
  · intro g hg hr
    exact (hfol g).mpr ⟨hg, fun hd => hr ((hmemD _).mp hd)⟩
  · intro fl hfl
    rcases (hfil fl).mp hfl with ⟨hm, hnd⟩
    exact ⟨hm, fun gid hgid hr => hnd gid hgid ((hmemD _).mpr hr)⟩
  · intro fl hfl hall
    exact (hfil fl).mpr ⟨hfl, fun gid hgid hd => hall gid hgid ((hmemD _).mp hd)⟩
  · intro c hc
    exact ((hchk c).mp hc).1
  · intro c hc fl hfl fid' hcf hid hall
    refine (hchk c).mpr ⟨hc, ?_⟩
    intro fid'' hcf'
    rw [hcf] at hcf'
    cases hcf'
    intro hin
    rcases (hdead fid').mp hin with ⟨fl', hfl', hid', gid, hfo', hgid⟩
    have : fl = fl' := by
      have hinj := List.inj_on_of_nodup_map hwf.files_nodup
      exact hinj hfl hfl' (by rw [hid, hid'])
    subst this
    exact hall gid hfo' ((hmemD _).mp hgid)
  · intro c hc fl hfl fid' gid hcf hid hfo hr hcin
    rcases (hchk c).mp hcin with ⟨-, hnd⟩
    exact hnd fid' hcf ((hdead fid').mpr ⟨fl, hfl, hid, gid, hfo, (hmemD _).mpr hr⟩)
  · intro g hg p hp
    rcases (hfol g).mp hg with ⟨hgm, hgnd⟩
    have hpid : p ∈ folderIds db := hwf.folders_fk g hgm p hp
    rcases List.mem_map.mp hpid with ⟨gp, hgp, rfl⟩
    have hpD : gp.id ∉ D := by
      intro hin
      exact hgnd ((hmemD _).mpr
        (CascadeDeleted.step g gp.id hgm hp ((hmemD _).mp hin)))
    exact List.mem_map_of_mem _ ((hfol gp).mpr ⟨hgp, hpD⟩)
  · intro fl hfl gid hgid
    rcases (hfil fl).mp hfl with ⟨hm, hnd⟩
    have hgD := hnd gid hgid
    rcases List.mem_map.mp (hwf.files_fk fl hm gid hgid) with ⟨gr, hgr, rfl⟩
    exact List.mem_map_of_mem _ ((hfol gr).mpr ⟨hgr, hgD⟩)
  · intro c hc fid' hcf
    rcases (hchk c).mp hc with ⟨hm, hnd⟩
    have hnin := hnd fid' hcf
    rcases List.mem_map.mp (hwf.chunks_fk c hm fid' hcf) with ⟨flr, hflr, rfl⟩
    refine List.mem_map_of_mem _ ((hfil flr).mpr ⟨hflr, ?_⟩)
    intro gid hgid hgD
    exact hnin ((hdead flr.id).mpr ⟨flr, hflr, rfl, gid, hgid, hgD⟩)

/-! ### Claims C9 and C3 -/

theorem mem_addFolderVictims_of_path {db : DB} {path : String} {old : FolderRow}
    (hold : old ∈ db.folders) (hpath : old.path = path) :
    old.id ∈ addFolderVictims db path := by
  rw [addFolderVictims]
  refine cascadeIter_le_subset db.folders _ (Nat.zero_le _) ?_
  refine List.mem_toFinset.mpr (List.mem_map_of_mem _ (List.mem_filter.mpr ⟨hold, ?_⟩))
  rw [hpath]
  exact beq_self_eq_true _

/-- C9: `add_folder` on a path that already has a row does not update that
row in place: the old row is deleted and a fresh row with a fresh id is
inserted, and — because the foreign keys cascade on the delete — every file
attached to the old row, every chunk of such a file, and every child folder
row of the old row are deleted as a side effect. -/
theorem add_folder_existing_path (db : DB) (hwf : DBWF db) (path now : String)
    (parent_id : Option Nat) (hfk : addFolderFkOk db path parent_id = true)
    (old : FolderRow) (hold : old ∈ db.folders) (hpath : old.path = path) :
    ∃ (db' : DB) (newId : Nat),
      add_folder db path parent_id now = some (db', newId) ∧
        newId = db.nextFolderId ∧ old.id ≠ newId ∧ old ∉ db'.folders ∧
        (∃ g ∈ db'.folders, g.path = path ∧ g.id = newId) ∧
        (∀ g ∈ db'.folders, g.path = path → g.id = newId) ∧
        (∀ fl ∈ db.files, fl.folder_id = some old.id → fl ∉ db'.files) ∧
        (∀ c ∈ db.chunks, ∀ fl ∈ db.files, ∀ fid', c.file_id = some fid' →
          fl.id = fid' → fl.folder_id = some old.id → c ∉ db'.chunks) ∧
        (∀ g ∈ db.folders, g.parent_id = some old.id → g ∉ db'.folders) := by
  set D := addFolderVictims db path with hD
  set newRow : FolderRow :=
    { id := db.nextFolderId, path := path, name := lastComponent path
    , parent_id := parent_id, level := addFolderLevel db parent_id
    , last_indexed := now } with hnew
  refine ⟨{ removeFolderCascade db D with
            folders := (removeFolderCascade db D).folders ++ [newRow]
          , nextFolderId := db.nextFolderId + 1 }, db.nextFolderId, ?_, rfl, ?_, ?_, ?_,
          ?_, ?_, ?_, ?_⟩
  · rw [add_folder, if_pos hfk]
  · exact Nat.ne_of_lt (hwf.folders_lt old hold)
  · intro hin
    rcases List.mem_append.mp hin with hin | hin
    · rcases List.mem_filter.mp hin with ⟨-, hpred⟩
      exact (of_decide_eq_true hpred) (mem_addFolderVictims_of_path hold hpath)
    · have : old = newRow := List.mem_singleton.mp hin
      have := congrArg FolderRow.id this
      exact absurd this (Nat.ne_of_lt (hwf.folders_lt old hold))
  · exact ⟨newRow, List.mem_append_right _ (List.mem_singleton.mpr rfl), rfl, rfl⟩
  · intro g hg hgpath
    rcases List.mem_append.mp hg with hg | hg
    · rcases List.mem_filter.mp hg with ⟨hgm, hpred⟩
      exact absurd (mem_addFolderVictims_of_path hgm hgpath)
        (of_decide_eq_true hpred)
    · rw [List.mem_singleton.mp hg]
  · intro fl hfl hfo hin
    rw [show ({ removeFolderCascade db D with
          folders := (removeFolderCascade db D).folders ++ [newRow]
        , nextFolderId := db.nextFolderId + 1 } : DB).files
        = (removeFolderCascade db D).files from rfl] at hin
    rcases List.mem_filter.mp hin with ⟨-, hpred⟩
    rcases hfo' : fl.folder_id with _ | g
    · rw [hfo'] at hfo; exact Option.noConfusion hfo
    · rw [hfo'] at hpred hfo
      cases hfo
      exact (of_decide_eq_true hpred) (mem_addFolderVictims_of_path hold hpath)
  · intro c hc fl hfl fid' hcf hid hfo hin
    rw [show ({ removeFolderCascade db D with
          folders := (removeFolderCascade db D).folders ++ [newRow]
        , nextFolderId := db.nextFolderId + 1 } : DB).chunks
        = (removeFolderCascade db D).chunks from rfl] at hin
    rcases List.mem_filter.mp hin with ⟨-, hpred⟩
    rw [hcf] at hpred
    refine (of_decide_eq_true hpred) ?_
    refine List.mem_map.mpr ⟨fl, List.mem_filter.mpr ⟨hfl, ?_⟩, hid⟩
    rw [hfo]
    exact decide_eq_true (mem_addFolderVictims_of_path hold hpath)
  · intro g hg hgp hin
    have hgD : g.id ∈ D :=
      mem_cascadeClosure_iff.mpr
        (CascadeDeleted.step g old.id hg hgp
          (mem_cascadeClosure_iff.mp (mem_addFolderVictims_of_path hold hpath)))
    rcases List.mem_append.mp hin with hin | hin
    · rcases List.mem_filter.mp hin with ⟨-, hpred⟩
      exact (of_decide_eq_true hpred) hgD
    · have := congrArg FolderRow.id (List.mem_singleton.mp hin)
      exact absurd this (Nat.ne_of_lt (hwf.folders_lt g hg))

/-- A decidable check implying `DBWF`, for concrete example databases. -/
def dbwfCheck (db : DB) : Bool :=
  db.folders.all (fun f => decide (f.id < db.nextFolderId)) &&
  db.files.all (fun fl => decide (fl.id < db.nextFileId)) &&
  decide ((db.folders.map (fun f => f.id)).Nodup) &&
  decide ((db.files.map (fun fl => fl.id)).Nodup) &&
  db.folders.all (fun f =>
    match f.parent_id with
    | some p => decide (p ∈ folderIds db)
    | none => true) &&
  db.files.all (fun fl =>
    match fl.folder_id with
    | some g => decide (g ∈ folderIds db)
    | none => true) &&
  db.chunks.all (fun c =>
    match c.file_id with
    | some fid => decide (fid ∈ fileIds db)
    | none => true)

theorem dbwf_of_check {db : DB} (h : dbwfCheck db = true) : DBWF db := by
  rw [dbwfCheck] at h
  simp only [Bool.and_eq_true, List.all_eq_true, decide_eq_true_iff] at h
  obtain ⟨⟨⟨⟨⟨⟨h1, h2⟩, h3⟩, h4⟩, h5⟩, h6⟩, h7⟩ := h
  refine ⟨fun f hf => h1 f hf, fun fl hfl => h2 fl hfl, h3, h4, ?_, ?_, ?_⟩
  · intro f hf p hp
    have := h5 f hf
    rw [hp] at this
    exact of_decide_eq_true this
  · intro fl hfl g hg
    have := h6 fl hfl
    rw [hg] at this
    exact of_decide_eq_true this
  · intro c hc fid hfid
    have := h7 c hc
    rw [hfid] at this
    exact of_decide_eq_true this

/-- Folder tree `A(1) ← B(2) ← C(3)`, a file under `C`, a chunk of that
file: the two-levels-of-descendants example of the specification. -/
def dbCascadeEx : DB :=
  { folders :=
      [ { id := 1, path := "/a", name := "a", parent_id := none, level := 0
        , last_indexed := "t0" }
      , { id := 2, path := "/a/b", name := "b", parent_id := some 1, level := 1
        , last_indexed := "t0" }
      , { id := 3, path := "/a/b/c", name := "c", parent_id := some 2, level := 2
        , last_indexed := "t0" } ]
  , files :=
      [ { id := 1, folder_id := some 3, file_path := "/a/b/c/f.txt"
        , file_name := "f.txt", file_type := ".txt", file_size := 3
        , last_modified := "t0", content_hash := "" } ]
  , chunks :=
      [ { id := 1, file_id := some 1, chunk_index := 0, content := "hello"
        , embedding := [1] } ]
  , nextFolderId := 4, nextFileId := 2, nextChunkId := 2 }

theorem remove_folder_spec_witness :
    ({ id := 1, path := "/a", name := "a", parent_id := none, level := 0
     , last_indexed := "t0" } : FolderRow) ∈ (remove_folder dbCascadeEx 2).folders ∧
      ({ id := 1, file_id := some 1, chunk_index := 0, content := "hello"
       , embedding := [1] } : ChunkRow) ∉ (remove_folder dbCascadeEx 2).chunks := by
  have h := remove_folder_spec dbCascadeEx (dbwf_of_check (by decide)) 2 (by decide)
  constructor
  · exact h.2.1 _ (by decide)
      (fun hr => absurd (mem_cascadeClosure_iff.mpr hr) (by decide))
  · exact h.2.2.2.2.2.2.1 _ (by decide)
      ({ id := 1, folder_id := some 3, file_path := "/a/b/c/f.txt"
       , file_name := "f.txt", file_type := ".txt", file_size := 3
       , last_modified := "t0", content_hash := "" } : FileRow) (by decide) 1 3 rfl rfl
      rfl (mem_cascadeClosure_iff.mp (by decide))

/-- Root folder with one child folder, one file and one chunk, used to
exercise the `add_folder` replace cascade. -/
def dbReplaceEx : DB :=
  { folders :=
      [ { id := 1, path := "/r", name := "r", parent_id := none, level := 0
        , last_indexed := "t0" }
      , { id := 2, path := "/r/s", name := "s", parent_id := some 1, level := 1
        , last_indexed := "t0" } ]
  , files :=
      [ { id := 1, folder_id := some 1, file_path := "/r/f.txt"
        , file_name := "f.txt", file_type := ".txt", file_size := 3
        , last_modified := "t0", content_hash := "" } ]
  , chunks :=
      [ { id := 1, file_id := some 1, chunk_index := 0, content := "x"
        , embedding := [1] } ]
  , nextFolderId := 3, nextFileId := 2, nextChunkId := 2 }

theorem add_folder_existing_path_witness :
    (add_folder dbReplaceEx "/r" none "t1").isSome = true := by
  obtain ⟨db', newId, heq, -⟩ :=
    add_folder_existing_path dbReplaceEx (dbwf_of_check (by decide)) "/r" "t1" none
      (by decide)
      ({ id := 1, path := "/r", name := "r", parent_id := none, level := 0
       , last_indexed := "t0" } : FolderRow) (by decide) rfl
  rw [heq]
  rfl

/-! ### Claim C1 -/

/-- The chunk rows created by storing a run's chunk list, with consecutive
fresh row ids starting at `start`. -/
def mkChunks (file_id start : Nat) : List (Nat × String × List ℚ) → List ChunkRow
  | [] => []
  | (i, s, e) :: rest =>
    { id := start, file_id := some file_id, chunk_index := i, content := s
    , embedding := e } :: mkChunks file_id (start + 1) rest

theorem mkChunks_map (file_id : Nat) :
    ∀ (start : Nat) (cs : List (Nat × String × List ℚ)),
      (mkChunks file_id start cs).map (fun c => (c.chunk_index, c.content, c.embedding))
        = cs := by
  intro start cs
  induction cs generalizing start with
  | nil => rfl
  | cons hd rest ih =>
    rcases hd with ⟨i, s, e⟩
    rw [mkChunks, List.map_cons, ih]

theorem mkChunks_file_id {file_id : Nat} :
    ∀ {start : Nat} {cs : List (Nat × String × List ℚ)} {c : ChunkRow},
      c ∈ mkChunks file_id start cs → c.file_id = some file_id := by
  intro start cs
  induction cs generalizing start with
  | nil => intro c hc; cases hc
  | cons hd rest ih =>
    rcases hd with ⟨i, s, e⟩
    intro c hc
    rcases List.mem_cons.mp hc with rfl | hc
    · rfl
    · exact ih hc

theorem add_chunks_eq (file_id : Nat) :
    ∀ (cs : List (Nat × String × List ℚ)) (db : DB), file_id ∈ fileIds db →
      add_chunks db file_id cs = some
        { db with
          chunks := db.chunks ++ mkChunks file_id db.nextChunkId cs,
          nextChunkId := db.nextChunkId + cs.length } := by
  intro cs
  induction cs with
  | nil =>
    intro db h
    simp [add_chunks, mkChunks]
  | cons hd rest ih =>
    rcases hd with ⟨i, s, e⟩
    intro db h
    rw [add_chunks, add_document_chunk, if_pos h]
    have h' : file_id ∈ fileIds
        { db with
          chunks := db.chunks ++
            [{ id := db.nextChunkId, file_id := some file_id, chunk_index := i,
               content := s, embedding := e }],
          nextChunkId := db.nextChunkId + 1 } := h
    dsimp only
    rw [ih _ h']
    rw [mkChunks]
    congr 2
    · rw [List.append_assoc]
      rfl
    · rw [List.length_cons]
      dsimp only
      omega

/-- One indexing run for one file: `add_file` followed by storing that run's
chunks through `add_document_chunk`. -/
def index_file_run (db : DB) (folder_id : Nat) (file_path : String) (info : FileMeta)
    (chunks : List (Nat × String × List ℚ)) : Option DB :=
  match add_file db folder_id file_path info with
  | some (db1, file_id) => add_chunks db1 file_id chunks
  | none => none

/-- Indexing the same path twice: two `add_file` calls on the same
`file_path`, each followed by that run's `add_document_chunk` calls. -/
def index_file_twice (db : DB) (folder1 folder2 : Nat) (file_path : String)
    (info1 info2 : FileMeta) (cs1 cs2 : List (Nat × String × List ℚ)) : Option DB :=
  match index_file_run db folder1 file_path info1 cs1 with
  | some db2 => index_file_run db2 folder2 file_path info2 cs2
  | none => none

/-- The rows of the `files` table holding a given path. -/
def filesOfPath (db : DB) (path : String) : List FileRow :=
  db.files.filter (fun fl => fl.file_path == path)

/-- The chunk rows associated with a path: chunks whose `file_id` references
a file row holding that path. -/
def chunksOfPath (db : DB) (path : String) : List ChunkRow :=
  db.chunks.filter (fun c =>
    match c.file_id with
    | some fid => ((filesOfPath db path).map (fun fl => fl.id)).contains fid
    | none => false)

/-- The state after one successful indexing run on one file. -/
def runResult (db : DB) (folder_id : Nat) (file_path : String) (info : FileMeta)
    (cs : List (Nat × String × List ℚ)) : DB :=
  { addFileResult db folder_id file_path info with
    chunks := (addFileResult db folder_id file_path info).chunks ++
      mkChunks db.nextFileId db.nextChunkId cs,
    nextChunkId := db.nextChunkId + cs.length }

theorem index_file_run_eq (db : DB) (folder_id : Nat) (file_path : String)
    (info : FileMeta) (cs : List (Nat × String × List ℚ))
    (h : folder_id ∈ folderIds db) :
    index_file_run db folder_id file_path info cs
      = some (runResult db folder_id file_path info cs) := by
  rw [index_file_run, add_file, if_pos h]
  dsimp only
  have hmem : db.nextFileId ∈ fileIds (addFileResult db folder_id file_path info) := by
    refine List.mem_map.mpr ⟨_, List.mem_append_right _ (List.mem_singleton.mpr rfl), rfl⟩
  exact add_chunks_eq db.nextFileId cs _ hmem

theorem filter_not_filter_self {α : Type} (l : List α) (p : α → Bool) :
    (l.filter (fun a => !(p a))).filter p = [] := by
  rw [List.filter_eq_nil_iff]
  intro a ha
  have h := (List.mem_filter.mp ha).2
  simp only [Bool.not_eq_true'] at h
  simp [h]

theorem filter_not_filter_not {α : Type} (l : List α) (p : α → Bool) :
    (l.filter (fun a => !(p a))).filter (fun a => !(p a))
      = l.filter (fun a => !(p a)) :=
  List.filter_eq_self.mpr (fun _ ha => (List.mem_filter.mp ha).2)

/-- C1: indexing the same path twice — two `add_file` calls with that
`file_path`, each followed by storing that run's chunks — leaves exactly one
row in the files table for that path, and the chunks associated with the
path afterwards are exactly the second run's chunks, never chunks of both
runs combined. -/
theorem add_file_twice_replaces (db : DB) (hwf : DBWF db) (f1 f2 : Nat)
    (path : String) (info1 info2 : FileMeta) (cs1 cs2 : List (Nat × String × List ℚ))
    (h1 : f1 ∈ folderIds db) (h2 : f2 ∈ folderIds db) :
    ∃ db' : DB, index_file_twice db f1 f2 path info1 info2 cs1 cs2 = some db' ∧
      (filesOfPath db' path).length = 1 ∧
      (chunksOfPath db' path).map (fun c => (c.chunk_index, c.content, c.embedding))
        = cs2 := by
  have h2' : f2 ∈ folderIds (runResult db f1 path info1 cs1) := h2
  -- after the second run, the only row holding `path` is the second fresh row
  have hfilesPath :
      filesOfPath (runResult (runResult db f1 path info1 cs1) f2 path info2 cs2) path
      = [{ id := db.nextFileId + 1, folder_id := some f2, file_path := path
         , file_name := info2.name, file_type := info2.ftype
         , file_size := info2.size, last_modified := info2.modified
         , content_hash := info2.hash }] := by
    rw [filesOfPath]
    rw [show (runResult (runResult db f1 path info1 cs1) f2 path info2 cs2).files
        = (db.files.filter (fun fl => !(fl.file_path == path)) ++
            ([{ id := db.nextFileId, folder_id := some f1, file_path := path
              , file_name := info1.name, file_type := info1.ftype
              , file_size := info1.size, last_modified := info1.modified
              , content_hash := info1.hash }] : List FileRow)).filter
              (fun fl => !(fl.file_path == path)) ++
          ([{ id := db.nextFileId + 1, folder_id := some f2, file_path := path
            , file_name := info2.name, file_type := info2.ftype
            , file_size := info2.size, last_modified := info2.modified
            , content_hash := info2.hash }] : List FileRow) from rfl]
    simp only [List.filter_append, filter_not_filter_not, filter_not_filter_self]
    simp
  -- the files deleted by the second `add_file` are exactly the first fresh row
  have hdead2 : ((runResult db f1 path info1 cs1).files.filter
        (fun fl => fl.file_path == path)).map (fun fl => fl.id)
      = [db.nextFileId] := by
    rw [show (runResult db f1 path info1 cs1).files
        = db.files.filter (fun fl => !(fl.file_path == path)) ++
          ([{ id := db.nextFileId, folder_id := some f1, file_path := path
            , file_name := info1.name, file_type := info1.ftype
            , file_size := info1.size, last_modified := info1.modified
            , content_hash := info1.hash }] : List FileRow) from rfl]
    rw [List.filter_append, filter_not_filter_self]
    simp
  refine ⟨runResult (runResult db f1 path info1 cs1) f2 path info2 cs2, ?_, ?_, ?_⟩
  · rw [index_file_twice, index_file_run_eq db f1 path info1 cs1 h1]
    dsimp only
    exact index_file_run_eq _ f2 path info2 cs2 h2'
  · rw [hfilesPath]
    rfl
  · rw [chunksOfPath, hfilesPath]
    rw [show (runResult (runResult db f1 path info1 cs1) f2 path info2 cs2).chunks
        = ((db.chunks.filter (fun c =>
              match c.file_id with
              | some fid => decide (fid ∉
                  (db.files.filter (fun fl => fl.file_path == path)).map
                    (fun fl => fl.id))
              | none => true) ++
            mkChunks db.nextFileId db.nextChunkId cs1).filter (fun c =>
              match c.file_id with
              | some fid => decide (fid ∉
                  ((runResult db f1 path info1 cs1).files.filter
                    (fun fl => fl.file_path == path)).map (fun fl => fl.id))
              | none => true)) ++
          mkChunks (db.nextFileId + 1) (db.nextChunkId + cs1.length) cs2 from rfl]
    have hA : (db.chunks.filter (fun c =>
          match c.file_id with
          | some fid => decide (fid ∉
              (db.files.filter (fun fl => fl.file_path == path)).map (fun fl => fl.id))
          | none => true)).filter (fun c =>
          match c.file_id with
          | some fid => decide (fid ∉
              ((runResult db f1 path info1 cs1).files.filter
                (fun fl => fl.file_path == path)).map (fun fl => fl.id))
          | none => true)
        = db.chunks.filter (fun c =>
          match c.file_id with
          | some fid => decide (fid ∉
              (db.files.filter (fun fl => fl.file_path == path)).map (fun fl => fl.id))
          | none => true) := by
      refine List.filter_eq_self.mpr ?_
      intro c hc
      have hcm : c ∈ db.chunks := List.mem_of_mem_filter hc
      rcases hfc : c.file_id with _ | fid
      · rfl
      · rw [hdead2]
        refine decide_eq_true ?_
        intro hin
        have hfid : fid = db.nextFileId := List.mem_singleton.mp hin
        rcases List.mem_map.mp (hwf.chunks_fk c hcm fid hfc) with ⟨flr, hflr, hfl⟩
        have := hwf.files_lt flr hflr
        omega
    have hB : (mkChunks db.nextFileId db.nextChunkId cs1).filter (fun c =>
          match c.file_id with
          | some fid => decide (fid ∉
              ((runResult db f1 path info1 cs1).files.filter
                (fun fl => fl.file_path == path)).map (fun fl => fl.id))
          | none => true) = [] := by
      refine List.filter_eq_nil_iff.mpr ?_
      intro c hc
      have hfc := mkChunks_file_id hc
      rw [hfc, hdead2]
      simp
    have hAB : (db.chunks.filter (fun c =>
          match c.file_id with
          | some fid => decide (fid ∉
              (db.files.filter (fun fl => fl.file_path == path)).map (fun fl => fl.id))
          | none => true) ++
          mkChunks db.nextFileId db.nextChunkId cs1).filter (fun c =>
          match c.file_id with
          | some fid => decide (fid ∉
              ((runResult db f1 path info1 cs1).files.filter
                (fun fl => fl.file_path == path)).map (fun fl => fl.id))
          | none => true)
        = db.chunks.filter (fun c =>
          match c.file_id with
          | some fid => decide (fid ∉
              (db.files.filter (fun fl => fl.file_path == path)).map (fun fl => fl.id))
          | none => true) := by
      rw [List.filter_append, hA, hB, List.append_nil]
    rw [hAB, List.filter_append]
    have hC : (db.chunks.filter (fun c =>
          match c.file_id with
          | some fid => decide (fid ∉
              (db.files.filter (fun fl => fl.file_path == path)).map (fun fl => fl.id))
          | none => true)).filter (fun c =>
          match c.file_id with
          | some fid =>
            (([{ id := db.nextFileId + 1, folder_id := some f2, file_path := path
               , file_name := info2.name, file_type := info2.ftype
               , file_size := info2.size, last_modified := info2.modified
               , content_hash := info2.hash }] : List FileRow).map
              (fun fl => fl.id)).contains fid
          | none => false) = [] := by
      refine List.filter_eq_nil_iff.mpr ?_
      intro c hc
      have hcm : c ∈ db.chunks := List.mem_of_mem_filter hc
      rcases hfc : c.file_id with _ | fid
      · simp
      · have hne : fid ≠ db.nextFileId + 1 := by
          rcases List.mem_map.mp (hwf.chunks_fk c hcm fid hfc) with ⟨flr, hflr, hfl⟩
          have := hwf.files_lt flr hflr
          omega
        simp [hne]
    have hD : (mkChunks (db.nextFileId + 1) (db.nextChunkId + cs1.length) cs2).filter
        (fun c =>
          match c.file_id with
          | some fid =>
            (([{ id := db.nextFileId + 1, folder_id := some f2, file_path := path
               , file_name := info2.name, file_type := info2.ftype
               , file_size := info2.size, last_modified := info2.modified
               , content_hash := info2.hash }] : List FileRow).map
              (fun fl => fl.id)).contains fid
          | none => false)
        = mkChunks (db.nextFileId + 1) (db.nextChunkId + cs1.length) cs2 := by
      refine List.filter_eq_self.mpr ?_
      intro c hc
      have hfc := mkChunks_file_id hc
      rw [hfc]
      simp
    rw [hC, hD, List.nil_append]
    exact mkChunks_map _ _ _

theorem add_file_twice_replaces_witness :
    ∃ db' : DB,
      index_file_twice dbReplaceEx 1 1 "/r/g.txt"
          { name := "g.txt", ftype := ".txt", size := 2, modified := "t1", hash := "h1" }
          { name := "g.txt", ftype := ".txt", size := 3, modified := "t2", hash := "h2" }
          [(0, "old chunk", [1])] [(0, "new chunk a", [2]), (1, "new chunk b", [3])]
        = some db' ∧
      (filesOfPath db' "/r/g.txt").length = 1 ∧
      (chunksOfPath db' "/r/g.txt").map (fun c => (c.chunk_index, c.content, c.embedding))
        = [(0, "new chunk a", [2]), (1, "new chunk b", [3])] :=
  add_file_twice_replaces dbReplaceEx (dbwf_of_check (by decide)) 1 1 "/r/g.txt"
    { name := "g.txt", ftype := ".txt", size := 2, modified := "t1", hash := "h1" }
    { name := "g.txt", ftype := ".txt", size := 3, modified := "t2", hash := "h2" }
    [(0, "old chunk", [1])] [(0, "new chunk a", [2]), (1, "new chunk b", [3])]
    (by decide) (by decide)

/-! ## 5. The organiser (`FileOrganiser.execute_organisation`,
file_organiser.py 245-354)

The filesystem is modelled by the set of existing file paths plus the set of
existing directories; `shutil.move` may raise, modelled by a per-source-path
`moveError` oracle (a move that does not raise removes the source path and
adds the target path). The vector-store calls the method makes
(`add_subfolder`, `update_file_location`, `save_organisation_actions`) are
recorded in the state; `target_folder.mkdir(parents=True, exist_ok=True)`
is modelled as never raising. The crucial control structure of the source is
kept exactly: the `try/except` wraps one whole *folder group*, so an
exception thrown while moving one file appends a single `failed` action
(built from the loop variable, i.e. the failing classification) and then
`continue`s with the next group — the remaining files of the same group are
not attempted. -/

/-- One entry of the `classifications` list passed to
`execute_organisation`. -/
structure OrgClassification where
  file_id : Nat
  file_path : String
  classification : String
  confidence : ℚ
  suggested_folder : String
deriving DecidableEq

/-- One entry of `actions_log`. -/
structure OrgAction where
  action_type : String
  source_path : String
  target_path : String
  classification : String
  confidence : ℚ
  status : String
  error : Option String
deriving DecidableEq

/-- The filesystem: existing files, existing directories, and which sources
make `shutil.move` raise (with which message). -/
structure FS where
  filePaths : List String
  dirPaths : List String
  moveError : String → Option String

/-- The mutable state of one `execute_organisation` run. -/
structure ExecSt where
  fs : FS
  log : List OrgAction
  movedFiles : List (String × String)
  createdFolders : List String
  dbSubfolders : List (Nat × String × String)
  dbFileLocs : List (Nat × String)

/-- `folder_groups[key].append(c)` on an insertion-ordered association list
(the iteration order of a Python `defaultdict`). -/
def addToGroups (gs : List (String × List OrgClassification)) (k : String)
    (c : OrgClassification) : List (String × List OrgClassification) :=
  match gs with
  | [] => [(k, [c])]
  | (k', cs) :: rest =>
    if k' == k then (k', cs ++ [c]) :: rest else (k', cs) :: addToGroups rest k c

/-- Group the classifications by `suggested_folder`, keys in first-appearance
order, files in input order. -/
def folderGroups (cs : List OrgClassification) :
    List (String × List OrgClassification) :=
  cs.foldl (fun gs c => addToGroups gs c.suggested_folder c) []

/-- The `if not target_folder.exists(): target_folder.mkdir(...)` step,
registering the new folder in the store via `add_subfolder`. -/
def ensureFolder (folder_id : Nat) (target_folder folder_name : String)
    (st : ExecSt) : ExecSt :=
  if target_folder ∈ st.fs.dirPaths then st
  else
    { st with
      fs := { st.fs with dirPaths := target_folder :: st.fs.dirPaths },
      createdFolders := st.createdFolders ++ [target_folder],
      dbSubfolders := st.dbSubfolders ++ [(folder_id, target_folder, folder_name)] }

/-- One file of a group: if the source exists and differs from the target,
move it (which may raise), update the store location and log a `completed`
action; otherwise skip silently. -/
def moveOne (target_folder : String) (st : ExecSt) (c : OrgClassification) :
    Except (String × ExecSt) ExecSt :=
  let source_path := c.file_path
  let target_path := target_folder ++ "/" ++ lastComponent c.file_path
  if source_path ∈ st.fs.filePaths ∧ source_path ≠ target_path then
    match st.fs.moveError source_path with
    | some err => Except.error (err, st)
    | none =>
      Except.ok
        { st with
          fs := { st.fs with
                  filePaths := target_path :: st.fs.filePaths.erase source_path },
          movedFiles := st.movedFiles ++ [(source_path, target_path)],
          dbFileLocs := st.dbFileLocs ++ [(c.file_id, target_path)],
          log := st.log ++
            [{ action_type := "move", source_path := source_path
             , target_path := target_path, classification := c.classification
             , confidence := c.confidence, status := "completed", error := none }] }
  else Except.ok st

/-- The inner `for classification in file_classifications` loop together with
the surrounding `except`: the first exception appends one `failed` action
(source and classification taken from the failing loop variable, target the
*folder*) and abandons the rest of the group. -/
def moveGroup (target_folder : String) : ExecSt → List OrgClassification → ExecSt
  | st, [] => st
  | st, c :: rest =>
    match moveOne target_folder st c with
    | Except.ok st' => moveGroup target_folder st' rest
    | Except.error (err, st') =>
      { st' with
        log := st'.log ++
          [{ action_type := "move", source_path := c.file_path
           , target_path := target_folder, classification := c.classification
           , confidence := c.confidence, status := "failed", error := some err }] }

/-- One folder group: create the target folder if needed, then move the
group's files. -/
def processGroup (folder_id : Nat) (base_path : String) (st : ExecSt)
    (g : String × List OrgClassification) : ExecSt :=
  moveGroup (base_path ++ "/" ++ g.1)
    (ensureFolder folder_id (base_path ++ "/" ++ g.1) g.1 st) g.2

/-- `FileOrganiser.execute_organisation`: without confirmation nothing is
done (`none` stands for the early `success: False` return); with
confirmation, group by suggested folder and process every group, returning
the final state (whose `log` is the `actions_log` that
`save_organisation_actions` then persists). -/
def execute_organisation (folder_id : Nat) (base_path : String)
    (classifications : List OrgClassification) (confirm : Bool) (fs0 : FS) :
    Option ExecSt :=
  if !confirm then none
  else some ((folderGroups classifications).foldl (processGroup folder_id base_path)
    { fs := fs0, log := [], movedFiles := [], createdFolders := []
    , dbSubfolders := [], dbFileLocs := [] })

/-! ### Claim C4 -/

/-- Three files, all classified into the same suggested folder; moving the
second raises. -/
def fsSameGroup : FS :=
  { filePaths := ["/r/a.txt", "/r/b.txt", "/r/c.txt"], dirPaths := []
  , moveError := fun p => if p == "/r/b.txt" then some "boom" else none }

def clsOf (fid : Nat) (p folder : String) : OrgClassification :=
  { file_id := fid, file_path := p, classification := "documents"
  , confidence := 0.5, suggested_folder := folder }

/-- C4 (counterexample): in a plan of 3 moves where move 2 fails by raising
(all three files grouped into the same suggested folder), move 3 is *not*
attempted: the group-level `except` abandons the rest of the group, so the
log holds one `completed` and one `failed` entry — not two `completed` — and
file 3 is still at its source. -/
theorem execute_organisation_cex :
    ∃ st : ExecSt,
      execute_organisation 1 "/r"
          [clsOf 1 "/r/a.txt" "Documents", clsOf 2 "/r/b.txt" "Documents",
            clsOf 3 "/r/c.txt" "Documents"] true fsSameGroup = some st ∧
        st.log.map (fun a => a.status) = ["completed", "failed"] ∧
        "/r/c.txt" ∈ st.fs.filePaths ∧
        st.movedFiles = [("/r/a.txt", "/r/Documents/a.txt")] := by
  refine ⟨_, rfl, ?_, ?_, ?_⟩
  · decide
  · decide
  · decide

/-- The file target path `target_folder / source.name` for a classification. -/
def targetPathOf (base : String) (c : OrgClassification) : String :=
  base ++ "/" ++ c.suggested_folder ++ "/" ++ lastComponent c.file_path

/-- The `completed` action logged for a successful move. -/
def completedAction (base : String) (c : OrgClassification) : OrgAction :=
  { action_type := "move", source_path := c.file_path
  , target_path := targetPathOf base c, classification := c.classification
  , confidence := c.confidence, status := "completed", error := none }

/-- The `failed` action logged when moving a file raises (its `target_path`
is the folder, as in the source). -/
def failedAction (base : String) (c : OrgClassification) (err : String) : OrgAction :=
  { action_type := "move", source_path := c.file_path
  , target_path := base ++ "/" ++ c.suggested_folder
  , classification := c.classification, confidence := c.confidence
  , status := "failed", error := some err }

theorem ensureFolder_log (folder_id : Nat) (tf fn : String) (st : ExecSt) :
    (ensureFolder folder_id tf fn st).log = st.log := by
  rw [ensureFolder]
  split <;> rfl

theorem ensureFolder_filePaths (folder_id : Nat) (tf fn : String) (st : ExecSt) :
    (ensureFolder folder_id tf fn st).fs.filePaths = st.fs.filePaths := by
  rw [ensureFolder]
  split <;> rfl

theorem ensureFolder_moveError (folder_id : Nat) (tf fn : String) (st : ExecSt) :
    (ensureFolder folder_id tf fn st).fs.moveError = st.fs.moveError := by
  rw [ensureFolder]
  split <;> rfl

theorem addToGroups_new (k : String) (c : OrgClassification) :
    ∀ gs : List (String × List OrgClassification),
      (∀ g ∈ gs, g.1 ≠ k) → addToGroups gs k c = gs ++ [(k, [c])] := by
  intro gs
  induction gs with
  | nil => intro _; rfl
  | cons hd rest ih =>
    intro h
    rcases hd with ⟨k', cs⟩
    have hne : (k' == k) = false :=
      beq_eq_false_iff_ne.mpr (h ⟨k', cs⟩ (List.mem_cons_self _ _))
    rw [addToGroups, hne]
    simp only [Bool.false_eq_true, if_false, List.cons_append]
    rw [ih (fun g hg => h g (List.mem_cons_of_mem _ hg))]

theorem foldl_addToGroups (cs : List OrgClassification) :
    ∀ gs : List (String × List OrgClassification),
      (cs.map (fun c => c.suggested_folder)).Nodup →
      (∀ g ∈ gs, ∀ c' ∈ cs, g.1 ≠ c'.suggested_folder) →
      cs.foldl (fun gs c => addToGroups gs c.suggested_folder c) gs
        = gs ++ cs.map (fun c => (c.suggested_folder, [c])) := by
  induction cs with
  | nil => intro gs _ _; simp
  | cons c rest ih =>
    intro gs hnd hdis
    rw [List.foldl_cons,
      addToGroups_new c.suggested_folder c gs
        (fun g hg => hdis g hg c (List.mem_cons_self _ _)),
      ih (gs ++ [(c.suggested_folder, [c])]) ((List.nodup_cons.mp hnd).2) ?_]
    · simp
    · intro g hg c' hc'
      rcases List.mem_append.mp hg with hg | hg
      · exact hdis g hg c' (List.mem_cons_of_mem _ hc')
      · rw [List.mem_singleton.mp hg]
        intro hEq
        refine (List.nodup_cons.mp hnd).1 ?_
        have hfe : c.suggested_folder = c'.suggested_folder := hEq
        simpa [hfe] using List.mem_map_of_mem (fun c => c.suggested_folder) hc'

theorem folderGroups_singletons (cs : List OrgClassification)
    (hnd : (cs.map (fun c => c.suggested_folder)).Nodup) :
    folderGroups cs = cs.map (fun c => (c.suggested_folder, [c])) := by
  rw [folderGroups, foldl_addToGroups cs [] hnd (by intro g hg; cases hg)]
  rfl

theorem moveOne_err (tf : String) (st : ExecSt) (c : OrgClassification)
    (err : String)
    (hmem : c.file_path ∈ st.fs.filePaths)
    (hne : c.file_path ≠ tf ++ "/" ++ lastComponent c.file_path)
    (h : st.fs.moveError c.file_path = some err) :
    moveOne tf st c = Except.error (err, st) := by
  rw [moveOne]
  simp only [if_pos (And.intro hmem hne), h]

theorem moveOne_ok (tf : String) (st : ExecSt) (c : OrgClassification)
    (hmem : c.file_path ∈ st.fs.filePaths)
    (hne : c.file_path ≠ tf ++ "/" ++ lastComponent c.file_path)
    (h : st.fs.moveError c.file_path = none) :
    moveOne tf st c = Except.ok
      { st with
        fs := { st.fs with
                filePaths := (tf ++ "/" ++ lastComponent c.file_path)
                  :: st.fs.filePaths.erase c.file_path },
        movedFiles := st.movedFiles
          ++ [(c.file_path, tf ++ "/" ++ lastComponent c.file_path)],
        dbFileLocs := st.dbFileLocs
          ++ [(c.file_id, tf ++ "/" ++ lastComponent c.file_path)],
        log := st.log ++
          [{ action_type := "move", source_path := c.file_path
           , target_path := tf ++ "/" ++ lastComponent c.file_path
           , classification := c.classification
           , confidence := c.confidence, status := "completed"
           , error := none }] } := by
  rw [moveOne]
  simp only [if_pos (And.intro hmem hne), h]

theorem processGroups_singleton_log (fid : Nat) (base : String)
    (me : String → Option String) :
    ∀ (cs : List OrgClassification) (st : ExecSt),
      st.fs.moveError = me →
      (∀ c ∈ cs, c.file_path ∈ st.fs.filePaths) →
      (∀ c ∈ cs, c.file_path ≠ targetPathOf base c) →
      (cs.map (fun c => c.file_path)).Nodup →
      ((cs.map (fun c => (c.suggested_folder, [c]))).foldl
          (processGroup fid base) st).log
        = st.log ++ cs.map (fun c =>
            match me c.file_path with
            | some err => failedAction base c err
            | none => completedAction base c) := by
  intro cs
  induction cs with
  | nil => intro st _ _ _ _; simp
  | cons c rest ih =>
    intro st hme hmem hne hnd
    rw [List.map_cons, List.foldl_cons, List.map_cons]
    have hmem1 : c.file_path
        ∈ (ensureFolder fid (base ++ "/" ++ c.suggested_folder)
            c.suggested_folder st).fs.filePaths := by
      rw [ensureFolder_filePaths]
      exact hmem c (List.mem_cons_self _ _)
    have hne1 : c.file_path
        ≠ (base ++ "/" ++ c.suggested_folder) ++ "/" ++ lastComponent c.file_path :=
      hne c (List.mem_cons_self _ _)
    have hme1 : (ensureFolder fid (base ++ "/" ++ c.suggested_folder)
        c.suggested_folder st).fs.moveError = me := by
      rw [ensureFolder_moveError, hme]
    rcases hcase : me c.file_path with _ | err
    · -- the move succeeds: one completed action, the file relocated
      have hstep : processGroup fid base st (c.suggested_folder, [c])
          = { ensureFolder fid (base ++ "/" ++ c.suggested_folder)
                c.suggested_folder st with
              fs := { (ensureFolder fid (base ++ "/" ++ c.suggested_folder)
                        c.suggested_folder st).fs with
                      filePaths := targetPathOf base c
                        :: (ensureFolder fid (base ++ "/" ++ c.suggested_folder)
                            c.suggested_folder st).fs.filePaths.erase c.file_path },
              movedFiles := (ensureFolder fid (base ++ "/" ++ c.suggested_folder)
                  c.suggested_folder st).movedFiles
                ++ [(c.file_path, targetPathOf base c)],
              dbFileLocs := (ensureFolder fid (base ++ "/" ++ c.suggested_folder)
                  c.suggested_folder st).dbFileLocs
                ++ [(c.file_id, targetPathOf base c)],
              log := st.log ++ [completedAction base c] } := by
        rw [processGroup]
        dsimp only
        rw [moveGroup,
          moveOne_ok (base ++ "/" ++ c.suggested_folder) _ c hmem1 hne1
            (by rw [hme1, hcase])]
        dsimp only
        rw [moveGroup, ensureFolder_log]
        rfl
      rw [hstep, ih _ ?_ ?_ (fun c' hc' => hne c' (List.mem_cons_of_mem _ hc'))
        ((List.nodup_cons.mp hnd).2)]
      · simp [hcase]
      · exact hme1
      · intro c' hc'
        refine List.mem_cons_of_mem _ ((List.mem_erase_of_ne ?_).mpr ?_)
        · intro hEq
          refine (List.nodup_cons.mp hnd).1 ?_
          simpa [hEq] using List.mem_map_of_mem (fun c => c.file_path) hc'
        · rw [ensureFolder_filePaths]
          exact hmem c' (List.mem_cons_of_mem _ hc')
    · -- the move raises: one failed action, state otherwise untouched
      have hstep : processGroup fid base st (c.suggested_folder, [c])
          = { ensureFolder fid (base ++ "/" ++ c.suggested_folder)
                c.suggested_folder st with
              log := st.log ++ [failedAction base c err] } := by
        rw [processGroup]
        dsimp only
        rw [moveGroup,
          moveOne_err (base ++ "/" ++ c.suggested_folder) _ c err hmem1 hne1
            (by rw [hme1, hcase])]
        dsimp only
        rw [ensureFolder_log]
        rfl
      rw [hstep, ih _ ?_ ?_ (fun c' hc' => hne c' (List.mem_cons_of_mem _ hc'))
        ((List.nodup_cons.mp hnd).2)]
      · simp [hcase]
      · rw [ensureFolder_moveError, hme]
      · intro c' hc'
        rw [ensureFolder_filePaths]
        exact hmem c' (List.mem_cons_of_mem _ hc')

/-- C4 (amended): with confirmation, a failing move appends one `failed`
action carrying the error and aborts only the *remaining files of its own
folder group* (they are neither attempted nor logged); files of other groups
are still processed. Hence when the suggested folders are pairwise distinct
(every group a singleton), a failure is fully isolated: each file whose
source exists and differs from its target yields exactly one action —
`failed` with the raised error if its move raises, `completed` otherwise —
in plan order, so for 3 such files where only move 2 raises the log is
exactly [completed, failed, completed]. (A missing source is skipped
silently, logging nothing, so it is not a source of `failed` entries.) -/
theorem execute_organisation_distinct (fid : Nat) (base : String)
    (cs : List OrgClassification) (fs0 : FS)
    (hndf : (cs.map (fun c => c.suggested_folder)).Nodup)
    (hndp : (cs.map (fun c => c.file_path)).Nodup)
    (hmem : ∀ c ∈ cs, c.file_path ∈ fs0.filePaths)
    (hne : ∀ c ∈ cs, c.file_path ≠ targetPathOf base c) :
    ∃ st : ExecSt,
      execute_organisation fid base cs true fs0 = some st ∧
        st.log = cs.map (fun c =>
          match fs0.moveError c.file_path with
          | some err => failedAction base c err
          | none => completedAction base c) := by
  refine ⟨_, rfl, ?_⟩
  have h := processGroups_singleton_log fid base fs0.moveError cs
    { fs := fs0, log := [], movedFiles := [], createdFolders := []
    , dbSubfolders := [], dbFileLocs := [] } rfl hmem hne hndp
  show (((folderGroups cs).foldl (processGroup fid base)
      { fs := fs0, log := [], movedFiles := [], createdFolders := []
      , dbSubfolders := [], dbFileLocs := [] }) : ExecSt).log = _
  rw [folderGroups_singletons cs hndf, h]
  simp

/-- Three files with pairwise-distinct suggested folders; moving the second
raises. -/
def fsDistinct : FS :=
  { filePaths := ["/r/a.txt", "/r/b.txt", "/r/c.txt"], dirPaths := []
  , moveError := fun p => if p == "/r/b.txt" then some "boom" else none }

def clsDistinct : List OrgClassification :=
  [clsOf 1 "/r/a.txt" "Reports", clsOf 2 "/r/b.txt" "Invoices",
    clsOf 3 "/r/c.txt" "Media"]

theorem execute_organisation_distinct_witness :
    ∃ st : ExecSt,
      execute_organisation 7 "/r" clsDistinct true fsDistinct = some st ∧
        st.log = clsDistinct.map (fun c =>
          match fsDistinct.moveError c.file_path with
          | some err => failedAction "/r" c err
          | none => completedAction "/r" c) :=
  execute_organisation_distinct 7 "/r" clsDistinct fsDistinct
    (by decide) (by decide) (by decide) (by decide)
